import Mathlib

/-!
Shallow embedding of the tree-construction core of `seqtc`
(`src/plugins/tree.rs`) and proofs of the specification claims.

Modelling conventions:
* Rust `String` sequences are modelled as `List Char` (the source always
  iterates with `.chars()`); taxon identifiers stay `String`.
* Rust `f64` distance values are modelled exactly: the neighbor-joining
  path only ever manipulates finite values obtained from integer Hamming
  counts by field operations, so its matrix lives in `ℚ`; the branch
  `distance` field of a tree node is an `EReal` so that the Jukes-Cantor
  saturation value `+∞` can be stored, as the Rust code stores
  `f64::INFINITY`.  (IEEE NaN, which the Rust code can produce only when
  dividing by the length of an empty sequence, is not representable in
  `EReal`; the places where it could arise are modelled with `Option`,
  `none` meaning "a NaN appeared here".)
* A Rust panic (index out of bounds, `Option::unwrap` on `None`) is
  modelled by returning `none` from an `Option`-valued function.
* The `HashMap<String, TreeNode>` of the neighbor-joining builder is
  modelled as an association list with HashMap semantics: `insert`
  replaces an existing binding, `remove` deletes and returns it.
-/

set_option maxHeartbeats 1000000

namespace Seqtc

/-- The tree node of `tree.rs`:
`struct TreeNode { name, left: Option<Box<TreeNode>>, right: Option<Box<TreeNode>>, distance: f64 }`. -/
inductive TreeNode where
  | mk (name : String) (left : Option TreeNode) (right : Option TreeNode)
       (distance : EReal) : TreeNode

namespace TreeNode

def name : TreeNode → String
  | .mk n _ _ _ => n

def left : TreeNode → Option TreeNode
  | .mk _ l _ _ => l

def right : TreeNode → Option TreeNode
  | .mk _ _ r _ => r

def distance : TreeNode → EReal
  | .mk _ _ _ d => d

end TreeNode

/-- A strictly binary tree: every node is a leaf (no children) or has both
children.  (The Rust `TreeNode` type itself would also allow unary nodes;
this predicate is what the spec's invariant talks about.) -/
def strictBinary : TreeNode → Bool
  | .mk _ none none _ => true
  | .mk _ (some l) (some r) _ => strictBinary l && strictBinary r
  | _ => false

/-- Names of the leaves, in left-to-right order. -/
def leafNames : TreeNode → List String
  | .mk n none none _ => [n]
  | .mk _ (some l) (some r) _ => leafNames l ++ leafNames r
  | .mk _ (some l) none _ => leafNames l
  | .mk _ none (some r) _ => leafNames r

/-- Number of internal (two-child) nodes. -/
def internalCount : TreeNode → Nat
  | .mk _ none none _ => 0
  | .mk _ (some l) (some r) _ => internalCount l + internalCount r + 1
  | .mk _ (some l) none _ => internalCount l
  | .mk _ none (some r) _ => internalCount r

/-- Number of leaves. -/
def leafCount (t : TreeNode) : Nat := (leafNames t).length

/-! ### Distance model (`hamming_distance`, `compute_distance_matrix`) -/

/-- `fn hamming_distance(seq1, seq2) -> usize`:
`seq1.chars().zip(seq2.chars()).filter(|(a, b)| a != b).count()`. -/
def hamming_distance (seq1 seq2 : List Char) : Nat :=
  ((seq1.zip seq2).filter (fun p => p.1 ≠ p.2)).length

/-- Total accessor for a matrix entry (all accesses made by the program are
in bounds whenever the matrix is square of the active size). -/
def mat (m : List (List ℚ)) (i j : Nat) : ℚ := (m.getD i []).getD j 0

/-- Write `v` at position `(i, j)`. -/
def matSet (m : List (List ℚ)) (i j : Nat) (v : ℚ) : List (List ℚ) :=
  m.set i ((m.getD i []).set j v)

/-- The body of the inner `for j in i..n` loop of
`compute_distance_matrix`: `0.0` on the diagonal, otherwise the Hamming
distance mirrored into both triangles. -/
def dmInner (sequences : List (List Char)) (i : ℕ) (m : List (List ℚ)) (j : ℕ) :
    List (List ℚ) :=
  if i = j then matSet m i j 0
  else
    let distance : ℚ := hamming_distance (sequences.getD i []) (sequences.getD j [])
    matSet (matSet m i j distance) j i distance

/-- `fn compute_distance_matrix(sequences) -> Vec<Vec<f64>>`: an `n × n`
zero matrix is filled by the double loop
`for i in 0..n { for j in i..n { ... } }`, writing the Hamming distance
into both triangles and `0.0` on the diagonal. -/
def compute_distance_matrix (sequences : List (List Char)) : List (List ℚ) :=
  let n := sequences.length
  (List.range n).foldl
    (fun m i => (List.range' i (n - i)).foldl (dmInner sequences i) m)
    (List.replicate n (List.replicate n (0 : ℚ)))

/-! ### Jukes-Cantor distance (`jukes_cantor_distance`) -/

/-- Result of the `f64`-valued Jukes-Cantor computation.  `nan` models the
IEEE NaN that the Rust code produces when `seq1` is empty (`0.0 / 0.0`
fails the `p >= 0.75` test and then propagates through `ln`); `inf` models
`f64::INFINITY`. -/
inductive JCVal where
  | nan : JCVal
  | inf : JCVal
  | val (x : ℝ) : JCVal

/-- `fn jukes_cantor_distance(seq1, seq2) -> f64`: the mismatch count over
the zipped prefix, `p = mismatches / seq1.len()`, `INFINITY` once
`p >= 0.75`, otherwise `-0.75 * (1 - 4p/3).ln()`. -/
noncomputable def jukes_cantor_distance (seq1 seq2 : List Char) : JCVal :=
  let mismatches := ((seq1.zip seq2).filter (fun p => p.1 ≠ p.2)).length
  if seq1.length = 0 then .nan
  else
    let p : ℚ := (mismatches : ℚ) / (seq1.length : ℚ)
    if 3 / 4 ≤ p then .inf
    else .val (-(3 / 4 : ℝ) * Real.log (1 - 4 * (p : ℝ) / 3))

/-- The mismatch proportion `p = mismatches / seq1.len()` computed inside
`jukes_cantor_distance` (a name for its `p` sub-expression). -/
def jcMismatchP (seq1 seq2 : List Char) : ℚ :=
  ((((seq1.zip seq2).filter (fun p => p.1 ≠ p.2)).length : ℚ)) / (seq1.length : ℚ)

/-- Storing a Jukes-Cantor result in the `f64` `distance` field: `+∞` is
representable in `EReal`, NaN is not (`none`). -/
def JCVal.store : JCVal → Option EReal
  | .nan => none
  | .inf => some ⊤
  | .val x => some (x : EReal)

/-! ### Likelihood (`calculate_likelihood`, `swap_subtrees`, `optimize_tree`) -/

/-- `f64::exp(-substitution_rate * distance)` with `distance` a stored
`f64`: at `distance = +∞` IEEE gives `exp(-∞) = 0`.  (`⊥` is unreachable
from this program — Jukes-Cantor never yields `-∞` and neighbor-joining
distances are finite — and is mapped to `0` for totality.) -/
noncomputable def transition_prob (rate : ℝ) (d : EReal) : ℝ :=
  if d = ⊤ then 0
  else if d = ⊥ then 0
  else Real.exp (-(rate * d.toReal))

/-- `fn calculate_likelihood(node, sequences, substitution_rate) -> f64`
(the `sequences` argument is unused by the source and omitted): a leaf is
`1.0`, an internal node is
`left_likelihood * right_likelihood * exp(-rate * distance)`; a unary node
makes the source panic on `unwrap` (`none`). -/
noncomputable def calculate_likelihood (rate : ℝ) : TreeNode → Option ℝ
  | .mk _ none none _ => some 1
  | .mk _ (some l) (some r) d => do
      let left_likelihood ← calculate_likelihood rate l
      let right_likelihood ← calculate_likelihood rate r
      some (left_likelihood * right_likelihood * transition_prob rate d)
  | _ => none

/-- `fn swap_subtrees(tree) -> TreeNode`: exchanges the root's two children
when both are present, otherwise returns the tree unchanged. -/
def swap_subtrees : TreeNode → TreeNode
  | .mk n (some l) (some r) d => .mk n (some r) (some l) d
  | t => t

open Classical in
/-- The `for _ in 0..100` body of `optimize_tree`, with the remaining
iteration count as fuel: swap, score, adopt on strict improvement. -/
noncomputable def optimizeLoop (rate : ℝ) : Nat → TreeNode × ℝ → Option (TreeNode × ℝ)
  | 0, st => some st
  | k + 1, (t, best_likelihood) => do
      let swapped_tree := swap_subtrees t
      let likelihood ← calculate_likelihood rate swapped_tree
      if best_likelihood < likelihood then optimizeLoop rate k (swapped_tree, likelihood)
      else optimizeLoop rate k (t, best_likelihood)

/-- `fn optimize_tree(tree, sequences, substitution_rate)`: initial best
score, then 100 candidate iterations; returns the final tree (`none`
models a likelihood panic on a malformed tree). -/
noncomputable def optimize_tree (rate : ℝ) (t : TreeNode) : Option TreeNode := do
  let best_likelihood ← calculate_likelihood rate t
  let st ← optimizeLoop rate 100 (t, best_likelihood)
  some st.1

/-! ### Heuristic likelihood builder (`build_initial_tree`,
`build_maximum_likelihood_tree`) -/

/-- `sequences.get(name)` on the `HashMap<String, String>`: the map is
carried as its list of entries in iteration order (keys distinct). -/
def lookupSeq (m : List (String × List Char)) (k : String) : Option (List Char) :=
  m.lookup k

/-- The loop body of `build_initial_tree`: look up the sequences of the
most recently attached taxon (`current_tree.name`) and of the new taxon,
and attach the previous tree as left child and a fresh leaf as right child
under the Jukes-Cantor branch distance. -/
noncomputable def initStep (order : List (String × List Char)) (current_tree : TreeNode)
    (p : String × List Char) : Option TreeNode := do
  let sq ← lookupSeq order current_tree.name
  let sq' ← lookupSeq order p.1
  let d ← (jukes_cantor_distance sq sq').store
  some (TreeNode.mk p.1 (some current_tree) (some (TreeNode.mk p.1 none none 0)) d)

/-- `fn build_initial_tree(sequences: &HashMap<String, String>) -> TreeNode`.
`sequences.keys()` iterates the hash map in an UNSPECIFIED order — a
permutation of the inserted taxa that is not the insertion order; the
function is therefore parameterized by `order`, the map's entries in
iteration order.  An empty map makes `names[0]` panic (`none`); a NaN
Jukes-Cantor distance (empty previous sequence) is not representable in
the `EReal` distance field (`none`, where the Rust code would proceed with
a NaN-distance branch). -/
noncomputable def build_initial_tree (order : List (String × List Char)) : Option TreeNode :=
  match order with
  | [] => none
  | (n0, _) :: rest => rest.foldlM (initStep order) (TreeNode.mk n0 none none 0)

/-- The fixed substitution rate of `build_maximum_likelihood_tree`
(`let substitution_rate = 0.1`). -/
noncomputable def substitution_rate : ℝ := 1 / 10

/-- `fn build_maximum_likelihood_tree(sequences, names) -> TreeNode`:
greedy initial tree, then the local-search optimizer.  `order` is the
iteration order of the internal `HashMap` built from
`names.iter().zip(sequences)`. -/
noncomputable def build_maximum_likelihood_tree (order : List (String × List Char)) :
    Option TreeNode := do
  let tree ← build_initial_tree order
  optimize_tree substitution_rate tree

/-! ### Newick serializer (`tree_to_newick`) -/

/-- `fn tree_to_newick(node) -> String`, parameterized by `fmt`, the
`Display` rendering of an `f64` (an external dependency of this core):
a leaf is its bare name; an internal node is
`format!("({}:{},{}:{})", left_str, node.distance, right_str, node.distance)`
— the parent's own distance on BOTH children; a unary node panics
(`none`). -/
def tree_to_newick (fmt : EReal → String) : TreeNode → Option String
  | .mk name none none _ => some name
  | .mk _ (some l) (some r) d => do
      let left_str ← tree_to_newick fmt l
      let right_str ← tree_to_newick fmt r
      some ("(" ++ left_str ++ ":" ++ fmt d ++ "," ++ right_str ++ ":" ++ fmt d ++ ")")
  | _ => none

/-! ### Neighbor-joining builder (`build_phylogenetic_tree`) -/

/-- The working state of the builder: the live matrix, the live name list
and the name-keyed node map. -/
structure NJState where
  dist : List (List ℚ)
  node_names : List String
  tree_nodes : List (String × TreeNode)

/-- `HashMap::insert`: replace an existing binding, else add one. -/
def mapInsert (m : List (String × TreeNode)) (k : String) (v : TreeNode) :
    List (String × TreeNode) :=
  if m.any (fun p => p.1 = k) then m.map (fun p => if p.1 = k then (k, v) else p)
  else m ++ [(k, v)]

/-- `HashMap::get` / the lookup part of `HashMap::remove`. -/
def mapFind (m : List (String × TreeNode)) (k : String) : Option TreeNode :=
  m.lookup k

/-- The deletion part of `HashMap::remove`. -/
def mapErase (m : List (String × TreeNode)) (k : String) : List (String × TreeNode) :=
  m.eraseP (fun p => p.1 == k)

/-- `dist[i].iter().sum()`. -/
def rowSum (dist : List (List ℚ)) (i : Nat) : ℚ := (dist.getD i []).sum

/-- The Q-criterion value the source writes at `q_matrix[i][j]` for
`i < j`: `(n - 2) * dist[i][j] - row_sum - col_sum`, both sums being full
row sums. -/
def qval (dist : List (List ℚ)) (n : Nat) (i j : Nat) : ℚ :=
  ((n : ℚ) - 2) * mat dist i j - rowSum dist i - rowSum dist j

/-- The nested scan order `for i in 0..n { for j in i+1..n { ... } }`. -/
def pairList (n : Nat) : List (Nat × Nat) :=
  (List.range n).flatMap (fun i => (List.range' (i + 1) (n - (i + 1))).map (fun j => (i, j)))

/-- The pair-selection scan of the source: starting from
`(min_i, min_j, min_value) = (0, 1, q_matrix[0][1])`, replace on strict
`q_matrix[i][j] < min_value`.  The source materialises `q_matrix` and
reads back exactly the `i < j` entries it has just written; the fold
inlines that read-back (the accumulator's stored `min_value` always equals
`qval` of the stored pair). -/
def selectPair (dist : List (List ℚ)) (n : Nat) : Nat × Nat :=
  (pairList n).foldl
    (fun acc p => if qval dist n p.1 p.2 < qval dist n acc.1 acc.2 then p else acc)
    (0, 1)

/-- One iteration of the `while n > 2` loop of
`build_phylogenetic_tree`, for the current active count `n`:
select the minimal-Q pair, merge its two nodes under a composite name,
build `new_dist_row` (writing `(d[i*][k] + d[j*][k] - d[i*][j*]) / 2` at
index `k.min(n - 2)`), shrink the matrix and name list, and append the new
row, column and name. -/
def njStep (n : Nat) (st : NJState) : Option NJState := do
  let sel := selectPair st.dist n
  let min_i := sel.1
  let min_j := sel.2
  let name_i ← st.node_names[min_i]?
  let name_j ← st.node_names[min_j]?
  let new_node_name := "(" ++ name_i ++ "," ++ name_j ++ ")"
  let node_i ← mapFind st.tree_nodes name_i
  let m1 := mapErase st.tree_nodes name_i
  let node_j ← mapFind m1 name_j
  let m2 := mapErase m1 name_j
  let distance := mat st.dist min_i min_j / 2
  let new_node := TreeNode.mk new_node_name (some node_i) (some node_j)
    (((distance : ℚ) : ℝ) : EReal)
  let m3 := mapInsert m2 new_node_name new_node
  let new_dist_row := (List.range n).foldl
    (fun row k =>
      if k ≠ min_i ∧ k ≠ min_j then
        row.set (min k (n - 2))
          ((mat st.dist min_i k + mat st.dist min_j k - mat st.dist min_i min_j) / 2)
      else row)
    (List.replicate (n - 1) (0 : ℚ))
  let dist1 := (st.dist.eraseIdx min_j).eraseIdx min_i
  let dist2 := dist1.map (fun row => (row.eraseIdx min_j).eraseIdx min_i)
  let dist3 := dist2 ++ [new_dist_row]
  let dist4 := (List.range (n - 2)).foldl
    (fun d i => d.set i ((d.getD i []) ++ [new_dist_row.getD i 0]))
    dist3
  let names1 := (st.node_names.eraseIdx min_j).eraseIdx min_i ++ [new_node_name]
  some ⟨dist4, names1, m3⟩

/-- The `while n > 2` loop, `n` decreasing by one per iteration. -/
def njLoop : Nat → NJState → Option NJState
  | n + 3, st => do
      let st' ← njStep (n + 3) st
      njLoop (n + 2) st'
  | _, st => some st

/-- The initial node map: one leaf per name, inserted in order. -/
def njInit (names : List String) : List (String × TreeNode) :=
  names.foldl (fun m name => mapInsert m name (TreeNode.mk name none none 0)) []

/-- `fn build_phylogenetic_tree(distance_matrix, names) -> TreeNode`:
leaf initialisation, the merge loop, and the final join of the last two
active nodes under a root of distance `0.0`.  A failed index or a failed
`HashMap` removal is a Rust panic (`none`). -/
def build_phylogenetic_tree (distance_matrix : List (List ℚ)) (names : List String) :
    Option TreeNode := do
  let n := distance_matrix.length
  let st ← njLoop n ⟨distance_matrix, names, njInit names⟩
  let name0 ← st.node_names[0]?
  let name1 ← st.node_names[1]?
  let root_name := "(" ++ name0 ++ "," ++ name1 ++ ")"
  let node_left ← mapFind st.tree_nodes name0
  let m1 := mapErase st.tree_nodes name0
  let node_right ← mapFind m1 name1
  some (TreeNode.mk root_name (some node_left) (some node_right) 0)

/-! ### The `build_tree` pipeline -/

/-- `TreePlugin::build_tree`, minus the file I/O of its collaborators:
route on the model selector, build, serialize.  `fmt` renders an `f64`;
`mlOrder` is the iteration order of the ML path's internal hash map.
`none` models a panic, `Except.error` a signalled failure. -/
noncomputable def build_tree (fmt : EReal → String) (mlOrder : List (String × List Char))
    (model : String) (taxa : List (String × List Char)) : Option (Except String String) :=
  let names := taxa.map Prod.fst
  let seqs_only := taxa.map Prod.snd
  let distance_matrix := compute_distance_matrix seqs_only
  if model = "ML" then do
    let tree ← build_maximum_likelihood_tree mlOrder
    let newick ← tree_to_newick fmt tree
    some (Except.ok newick)
  else if model = "NJ" then do
    let tree ← build_phylogenetic_tree distance_matrix names
    let newick ← tree_to_newick fmt tree
    some (Except.ok newick)
  else
    some (Except.error ("不支持的模型类型: " ++ model))

/-! ## Claim C5: Newick rendering shape -/

/-- **C5**: the Newick serializer renders a leaf as exactly its bare name
(no parentheses, no colon), and renders an internal node as
`"(" ++ left ++ ":" ++ d ++ "," ++ right ++ ":" ++ d ++ ")"` where `d` is
the rendering of the PARENT node's own distance field, annotated
identically on both children; no trailing semicolon or root label is
appended (the equations fully determine the output). -/
theorem claim_C5_newick (fmt : EReal → String) (name : String) (d : EReal)
    (l r : TreeNode) (L R : String)
    (hl : tree_to_newick fmt l = some L) (hr : tree_to_newick fmt r = some R) :
    tree_to_newick fmt (.mk name none none d) = some name ∧
    tree_to_newick fmt (.mk name (some l) (some r) d) =
      some ("(" ++ L ++ ":" ++ fmt d ++ "," ++ R ++ ":" ++ fmt d ++ ")") := by
  refine ⟨rfl, ?_⟩
  simp [tree_to_newick, hl, hr]

/-- Witness for C5 at a concrete leaf and a concrete internal node. -/
theorem claim_C5_newick_witness :
    tree_to_newick (fun _ => "5") (.mk "X" none none 0) = some "X" ∧
    tree_to_newick (fun _ => "5")
        (.mk "X" (some (.mk "A" none none 0)) (some (.mk "B" none none 0)) 0) =
      some ("(" ++ "A" ++ ":" ++ "5" ++ "," ++ "B" ++ ":" ++ "5" ++ ")") :=
  claim_C5_newick (fun _ => "5") "X" 0 _ _ "A" "B" rfl rfl

/-! ## Claim C8: Jukes-Cantor distance -/

/-- **C8**: for sequences `a`, `b` (with `a` nonempty, so that the mismatch
proportion `p = mismatches / a.length` is a well-defined number — on an
empty `a` the Rust `0.0 / 0.0` is NaN, outside the claim's `p ∈ [0, 1]`
guard), `p` always lies in `[0, 1]`; the function returns `+∞` exactly
when `p ≥ 3/4` and otherwise `-0.75 * ln(1 - 4p/3)` with a strictly
positive logarithm argument (so no NaN and no failure is possible). -/
theorem claim_C8_jukes_cantor (seq1 seq2 : List Char) (hne : seq1.length ≠ 0) :
    0 ≤ jcMismatchP seq1 seq2 ∧ jcMismatchP seq1 seq2 ≤ 1 ∧
    (3 / 4 ≤ jcMismatchP seq1 seq2 → jukes_cantor_distance seq1 seq2 = .inf) ∧
    (jcMismatchP seq1 seq2 < 3 / 4 → 0 < 1 - 4 * ((jcMismatchP seq1 seq2 : ℚ) : ℝ) / 3 ∧
      jukes_cantor_distance seq1 seq2 =
        .val (-(3 / 4 : ℝ) * Real.log (1 - 4 * ((jcMismatchP seq1 seq2 : ℚ) : ℝ) / 3))) ∧
    jukes_cantor_distance seq1 seq2 ≠ .nan := by
  have hlenpos : (0 : ℚ) < (seq1.length : ℚ) := by
    exact_mod_cast Nat.pos_of_ne_zero hne
  have hmle : ((seq1.zip seq2).filter (fun p => p.1 ≠ p.2)).length ≤ seq1.length := by
    calc ((seq1.zip seq2).filter (fun p => p.1 ≠ p.2)).length
        ≤ (seq1.zip seq2).length := List.length_filter_le _ _
    _ ≤ seq1.length := by rw [List.length_zip]; exact min_le_left _ _
  have hp0 : 0 ≤ jcMismatchP seq1 seq2 := by
    unfold jcMismatchP
    positivity
  have hp1 : jcMismatchP seq1 seq2 ≤ 1 := by
    unfold jcMismatchP
    rw [div_le_one hlenpos]
    exact_mod_cast hmle
  refine ⟨hp0, hp1, ?_, ?_, ?_⟩
  · intro hsat
    simp only [jcMismatchP] at hsat
    simp only [jukes_cantor_distance, if_neg hne]
    rw [if_pos hsat]
  · intro hlt
    have harg : 0 < 1 - 4 * ((jcMismatchP seq1 seq2 : ℚ) : ℝ) / 3 := by
      have hq : (0 : ℚ) < 1 - 4 * jcMismatchP seq1 seq2 / 3 := by linarith
      exact_mod_cast hq
    refine ⟨harg, ?_⟩
    simp only [jcMismatchP] at hlt ⊢
    simp only [jukes_cantor_distance, if_neg hne]
    rw [if_neg (not_le.mpr hlt)]
  · simp only [jukes_cantor_distance, if_neg hne]
    split <;> simp

/-- Witness for C8 on `("AC", "AG")`: one mismatch over length two. -/
theorem claim_C8_jukes_cantor_witness :
    0 ≤ jcMismatchP ['A', 'C'] ['A', 'G'] ∧ jcMismatchP ['A', 'C'] ['A', 'G'] ≤ 1 ∧
    (3 / 4 ≤ jcMismatchP ['A', 'C'] ['A', 'G'] →
      jukes_cantor_distance ['A', 'C'] ['A', 'G'] = .inf) ∧
    (jcMismatchP ['A', 'C'] ['A', 'G'] < 3 / 4 →
      0 < 1 - 4 * ((jcMismatchP ['A', 'C'] ['A', 'G'] : ℚ) : ℝ) / 3 ∧
      jukes_cantor_distance ['A', 'C'] ['A', 'G'] =
        .val (-(3 / 4 : ℝ) *
          Real.log (1 - 4 * ((jcMismatchP ['A', 'C'] ['A', 'G'] : ℚ) : ℝ) / 3))) ∧
    jukes_cantor_distance ['A', 'C'] ['A', 'G'] ≠ .nan :=
  claim_C8_jukes_cantor ['A', 'C'] ['A', 'G'] (by decide)

/-! ## Claim C1: the distance-update step of a neighbor-joining iteration -/

/-- **C1** (code bug): on the spec's own worked example
(`d(S1,S2) = 1`, `d(S1,S3) = 4`, `d(S2,S3) = 3`, `n = 3`), the first
iteration merges `(S1, S2)` (so the remaining active node is `S3`, landing
at position `0` after rows/columns `0` and `1` are removed), and the
neighbor-joining correction gives `d(new, S3) = (4 + 3 - 1) / 2 = 3`; but
the matrix after the step is `[[0, 0], [0, 3]]`: the code wrote the
corrected distance at index `k.min(n - 2) = 1` — the new node's own
diagonal — instead of position `0`, leaving the stored distance between
the new node and `S3` as `0` and a nonzero value on the diagonal. -/
theorem claim_C1_misplaced_update :
    selectPair [[0, 1, 4], [1, 0, 3], [4, 3, 0]] 3 = (0, 1) ∧
    (mat [[0, 1, 4], [1, 0, 3], [4, 3, 0]] 0 2 + mat [[0, 1, 4], [1, 0, 3], [4, 3, 0]] 1 2
      - mat [[0, 1, 4], [1, 0, 3], [4, 3, 0]] 0 1) / 2 = (3 : ℚ) ∧
    (njStep 3 ⟨[[0, 1, 4], [1, 0, 3], [4, 3, 0]], ["S1", "S2", "S3"],
        njInit ["S1", "S2", "S3"]⟩).map NJState.dist = some [[0, 0], [0, 3]] := by
  have hsel : selectPair [[0, 1, 4], [1, 0, 3], [4, 3, 0]] 3 = (0, 1) := by
    simp only [selectPair, show pairList 3 = [(0,1),(0,2),(1,2)] from rfl, List.foldl, qval]
    norm_num [mat, rowSum, List.sum_cons, List.sum_nil, List.getD]
  refine ⟨hsel, by norm_num [mat], ?_⟩
  simp only [njStep, hsel, njInit, mapInsert, mapFind, mapErase,
    show List.range 3 = [0,1,2] from rfl, show List.range 1 = [0] from rfl]
  norm_num [mat, List.foldl, List.lookup, List.eraseP, List.eraseIdx, List.set, Option.bind,
    List.getD]

/-! ## Claim C2 (counterexample): composite-name collision -/

/-- **C2** (counterexample): three taxa with the distinct identifiers
`"A"`, `"B"`, `"(A,B)"` (identical sequences, so the first merge is the
scan-initial pair `(0, 1) = (A, B)`).  The merged node's synthetic name
`"(A,B)"` collides with the third taxon's identifier in the name-keyed
node map: the insert overwrites the leaf, and the final join then panics
on `remove(...).unwrap()` — the builder does not return a tree at all. -/
theorem claim_C2_name_collision :
    (["A", "B", "(A,B)"] : List String).Nodup ∧ 2 ≤ (["A", "B", "(A,B)"] : List String).length ∧
    (build_phylogenetic_tree (compute_distance_matrix [['A'], ['A'], ['A']])
      ["A", "B", "(A,B)"]).isNone = true := by
  refine ⟨by decide, by decide, ?_⟩
  have hm : compute_distance_matrix [['A'], ['A'], ['A']] =
      [[0, 0, 0], [0, 0, 0], [0, 0, 0]] := by decide
  have hsel : selectPair [[0, 0, 0], [0, 0, 0], [0, 0, 0]] 3 = (0, 1) := by
    simp only [selectPair, show pairList 3 = [(0,1),(0,2),(1,2)] from rfl, List.foldl, qval]
    norm_num [mat, rowSum, List.sum_cons, List.sum_nil, List.getD]
  simp only [build_phylogenetic_tree, hm, njLoop, njStep, hsel, njInit, mapInsert, mapFind,
    mapErase, show List.range 3 = [0,1,2] from rfl, show List.range 1 = [0] from rfl]
  norm_num [List.foldl, List.lookup, List.eraseP, List.eraseIdx, List.set, Option.bind,
    List.getD, show ("(" ++ "A" ++ "," ++ "B" ++ ")" : String) = "(A,B)" from rfl]

/-! ## Likelihood helper lemmas -/

/-- Swapping the root's children permutes the two likelihood factors and
keeps the root's own distance, so the score is unchanged. -/
lemma calculate_likelihood_swap (rate : ℝ) (t : TreeNode) :
    calculate_likelihood rate (swap_subtrees t) = calculate_likelihood rate t := by
  cases t with
  | mk n l r d =>
    cases l with
    | none =>
      cases r with
      | none => rfl
      | some r' => rfl
    | some l' =>
      cases r with
      | none => rfl
      | some r' =>
        simp only [swap_subtrees, calculate_likelihood]
        cases hl : calculate_likelihood rate l' <;>
          cases hr : calculate_likelihood rate r' <;>
            simp [hl, hr, mul_comm, mul_left_comm, mul_assoc]

/-- When the swapped candidate scores exactly the current best, the loop
state never changes. -/
lemma optimizeLoop_fix (rate : ℝ) (k : Nat) (t : TreeNode) (b : ℝ)
    (h : calculate_likelihood rate (swap_subtrees t) = some b) :
    optimizeLoop rate k (t, b) = some (t, b) := by
  induction k with
  | zero => rfl
  | succ k ih =>
    simp only [optimizeLoop, h, Option.bind_eq_bind, Option.some_bind]
    rw [if_neg (lt_irrefl b)]
    exact ih

/-- The optimizer returns its input unchanged on any tree whose likelihood
is defined. -/
lemma optimize_tree_fix (rate : ℝ) (t : TreeNode) (v : ℝ)
    (h : calculate_likelihood rate t = some v) :
    optimize_tree rate t = some t := by
  have hs : calculate_likelihood rate (swap_subtrees t) = some v :=
    (calculate_likelihood_swap rate t).trans h
  simp [optimize_tree, h, optimizeLoop_fix rate 100 t v hs]

/-- A strictly binary tree always has a defined likelihood. -/
lemma strictBinary_likelihood (rate : ℝ) :
    ∀ t : TreeNode, strictBinary t = true → ∃ v, calculate_likelihood rate t = some v
  | .mk _ none none _, _ => ⟨1, rfl⟩
  | .mk _ (some l) (some r) d, h => by
    simp only [strictBinary, Bool.and_eq_true] at h
    obtain ⟨vl, hl⟩ := strictBinary_likelihood rate l h.1
    obtain ⟨vr, hr⟩ := strictBinary_likelihood rate r h.2
    exact ⟨vl * vr * transition_prob rate d, by simp [calculate_likelihood, hl, hr]⟩
  | .mk _ (some l) none _, h => by simp [strictBinary] at h
  | .mk _ none (some r) _, h => by simp [strictBinary] at h

/-- A successful `initStep` wraps the previous tree and a fresh leaf. -/
lemma initStep_shape {order : List (String × List Char)} {cur : TreeNode}
    {p : String × List Char} {t1 : TreeNode} (h : initStep order cur p = some t1) :
    ∃ d, t1 = .mk p.1 (some cur) (some (.mk p.1 none none 0)) d := by
  unfold initStep at h
  simp only [Option.bind_eq_bind, Option.bind_eq_some] at h
  obtain ⟨sq, h1, sq', h2, d, h3, h⟩ := h
  exact ⟨d, (Option.some_inj.mp h).symm⟩

/-- The greedy fold preserves strict binarity. -/
lemma foldlM_initStep_strictBinary (order : List (String × List Char)) :
    ∀ (rest : List (String × List Char)) (cur : TreeNode), strictBinary cur = true →
      ∀ t, List.foldlM (initStep order) cur rest = some t → strictBinary t = true := by
  intro rest
  induction rest with
  | nil =>
    intro cur hc t h
    simp only [List.foldlM_nil, Option.pure_def, Option.some_inj] at h
    rwa [← h]
  | cons p rest ih =>
    intro cur hc t h
    rw [List.foldlM_cons] at h
    simp only [Option.bind_eq_bind, Option.bind_eq_some] at h
    obtain ⟨t1, h1, h⟩ := h
    obtain ⟨d, rfl⟩ := initStep_shape h1
    exact ih _ (by simp [strictBinary, hc]) t h

/-- Any tree produced by Phase A is strictly binary. -/
lemma build_initial_tree_strictBinary {order : List (String × List Char)} {t : TreeNode}
    (h : build_initial_tree order = some t) : strictBinary t = true := by
  cases order with
  | nil => simp [build_initial_tree] at h
  | cons p rest =>
    obtain ⟨n0, s0⟩ := p
    unfold build_initial_tree at h
    exact foldlM_initStep_strictBinary _ rest _ (by rfl) t h

/-! ## Claim C10: the optimizer is a no-op -/

/-- **C10**: swapping the root's two children preserves the likelihood
score exactly for every tree (the product is commutative and the swapped
root keeps its own distance), so the local-search optimizer never finds a
strictly better candidate and the heuristic builder's final output equals
its Phase A initial tree on every input. -/
theorem claim_C10_optimizer_noop :
    (∀ (rate : ℝ) (t : TreeNode),
      calculate_likelihood rate (swap_subtrees t) = calculate_likelihood rate t) ∧
    (∀ order : List (String × List Char),
      build_maximum_likelihood_tree order = build_initial_tree order) := by
  refine ⟨calculate_likelihood_swap, fun order => ?_⟩
  cases h : build_initial_tree order with
  | none => simp [build_maximum_likelihood_tree, h]
  | some t =>
    obtain ⟨v, hv⟩ :=
      strictBinary_likelihood substitution_rate t (build_initial_tree_strictBinary h)
    simp [build_maximum_likelihood_tree, h, optimize_tree_fix substitution_rate t v hv]

/-! ## Claim C7: likelihood bounds -/

/-- The distances carried by the internal nodes of a tree. -/
def distList : TreeNode → List EReal
  | .mk _ none none _ => []
  | .mk _ (some l) (some r) d => d :: (distList l ++ distList r)
  | .mk _ (some l) none _ => distList l
  | .mk _ none (some r) _ => distList r

/-- Bottom-up bounds: with a nonnegative rate and finite nonnegative
distances, every strictly binary tree scores in `(0, 1]`. -/
lemma likelihood_mem_Ioc (rate : ℝ) (hrate : 0 ≤ rate) :
    ∀ t : TreeNode, strictBinary t = true →
      (∀ d ∈ distList t, ∃ x : ℝ, d = (x : EReal) ∧ 0 ≤ x) →
      ∃ v, calculate_likelihood rate t = some v ∧ 0 < v ∧ v ≤ 1
  | .mk _ none none _, _, _ => ⟨1, rfl, one_pos, le_refl 1⟩
  | .mk _ (some l) (some r) d, h, hd => by
    simp only [strictBinary, Bool.and_eq_true] at h
    have hdl : ∀ d' ∈ distList l, ∃ x : ℝ, d' = (x : EReal) ∧ 0 ≤ x := by
      intro d' hmem; exact hd d' (by simp [distList, hmem])
    have hdr : ∀ d' ∈ distList r, ∃ x : ℝ, d' = (x : EReal) ∧ 0 ≤ x := by
      intro d' hmem; exact hd d' (by simp [distList, hmem])
    obtain ⟨vl, hl, hl0, hl1⟩ := likelihood_mem_Ioc rate hrate l h.1 hdl
    obtain ⟨vr, hr, hr0, hr1⟩ := likelihood_mem_Ioc rate hrate r h.2 hdr
    obtain ⟨x, hdx, hx⟩ := hd d (by simp [distList])
    have htp : transition_prob rate d = Real.exp (-(rate * x)) := by
      rw [hdx]
      simp [transition_prob]
    refine ⟨vl * vr * transition_prob rate d, by simp [calculate_likelihood, hl, hr], ?_, ?_⟩
    · rw [htp]
      exact mul_pos (mul_pos hl0 hr0) (Real.exp_pos _)
    · rw [htp]
      have hexp1 : Real.exp (-(rate * x)) ≤ 1 :=
        Real.exp_le_one_iff.mpr (neg_nonpos.mpr (mul_nonneg hrate hx))
      have hlr : vl * vr ≤ 1 := mul_le_one₀ hl1 hr0.le hr1
      exact mul_le_one₀ hlr (Real.exp_pos _).le hexp1
  | .mk _ (some l) none _, h, _ => by simp [strictBinary] at h
  | .mk _ none (some r) _, h, _ => by simp [strictBinary] at h

/-- **C7** (amended): for every strictly binary tree all of whose branch
distances are finite nonnegative reals, the bottom-up likelihood score at
rate `0.1` is defined and lies in the half-open interval `(0, 1]`.  (The
claim as stated, over every strictly binary tree, fails: a negative
distance pushes the score above `1` — see the counterexample.) -/
theorem claim_C7_amended (t : TreeNode) (h : strictBinary t = true)
    (hd : ∀ d ∈ distList t, ∃ x : ℝ, d = (x : EReal) ∧ 0 ≤ x) :
    ∃ v, calculate_likelihood substitution_rate t = some v ∧ 0 < v ∧ v ≤ 1 :=
  likelihood_mem_Ioc substitution_rate (by norm_num [substitution_rate]) t h hd

/-- Witness for C7 on a cherry with branch distance `1`. -/
theorem claim_C7_amended_witness :
    ∃ v, calculate_likelihood substitution_rate
        (.mk "x" (some (.mk "a" none none 0)) (some (.mk "b" none none 0))
          ((1 : ℝ) : EReal)) = some v ∧ 0 < v ∧ v ≤ 1 :=
  claim_C7_amended _ (by rfl) (by
    intro d hd
    simp only [distList, List.append_nil, List.mem_singleton] at hd
    exact ⟨1, hd, by norm_num⟩)

/-- **C7** (counterexample): the claim quantifies over every strictly
binary tree, but a root with branch distance `-1` scores
`exp(0.1) > 1`, outside `(0, 1]`. -/
theorem claim_C7_counterexample :
    strictBinary (.mk "x" (some (.mk "a" none none 0)) (some (.mk "b" none none 0))
      ((-1 : ℝ) : EReal)) = true ∧
    calculate_likelihood substitution_rate
      (.mk "x" (some (.mk "a" none none 0)) (some (.mk "b" none none 0))
        ((-1 : ℝ) : EReal)) = some (Real.exp (1 / 10)) ∧
    1 < Real.exp (1 / 10) := by
  refine ⟨rfl, ?_, ?_⟩
  · have htp : transition_prob substitution_rate ((-1 : ℝ) : EReal) = Real.exp (1 / 10) := by
      simp only [transition_prob, if_neg (EReal.coe_ne_top (-1)),
        if_neg (EReal.coe_ne_bot (-1)), EReal.toReal_coe, substitution_rate]
      norm_num
    simp only [calculate_likelihood, Option.bind_eq_bind, Option.some_bind, htp, one_mul]
  · rw [← Real.exp_zero]
    exact Real.exp_lt_exp.mpr (by norm_num)

/-! ## Claim C6: no insufficient-taxa rejection -/

/-- **C6** (code bug): the pipeline performs NO check for fewer than two
taxa.  On a single taxon, the `"NJ"` route panics with an
index-out-of-bounds on `node_names[1]` after happily computing the `1 × 1`
distance matrix (a crash, not a signalled "insufficient taxa" failure),
and the `"ML"` route silently succeeds, emitting the lone leaf name
instead of rejecting the input. -/
theorem claim_C6_no_degenerate_check :
    build_tree (fun _ => "") [("A", ['A', 'C', 'G', 'T'])] "NJ"
      [("A", ['A', 'C', 'G', 'T'])] = none ∧
    build_tree (fun _ => "") [("A", ['A', 'C', 'G', 'T'])] "ML"
      [("A", ['A', 'C', 'G', 'T'])] = some (Except.ok "A") := by
  constructor
  · have hm : compute_distance_matrix [['A', 'C', 'G', 'T']] = [[0]] := by decide
    have hnj : build_phylogenetic_tree [[0]] ["A"] = none := by
      simp [build_phylogenetic_tree, njLoop, njInit]
    simp [build_tree, hm, hnj]
  · have hinit : build_initial_tree [("A", ['A', 'C', 'G', 'T'])] =
        some (.mk "A" none none 0) := rfl
    have hopt : optimize_tree substitution_rate (.mk "A" none none 0) =
        some (.mk "A" none none 0) :=
      optimize_tree_fix substitution_rate _ 1 rfl
    simp [build_tree, build_maximum_likelihood_tree, hinit, hopt, tree_to_newick]

/-! ## Claim C3: pair selection -/

/-- Scan order on index pairs: `(i, j)` comes before `(k, l)` when `i < k`,
or `i = k` and `j < l`. -/
def pairLex (p q : ℕ × ℕ) : Prop := p.1 < q.1 ∨ (p.1 = q.1 ∧ p.2 < q.2)

lemma pairLex_irrefl (p : ℕ × ℕ) : ¬ pairLex p p := by
  simp [pairLex]

lemma pairLex_asymm {p q : ℕ × ℕ} (h : pairLex p q) (h' : pairLex q p) : False := by
  rcases h with h | ⟨h1, h2⟩ <;> rcases h' with h' | ⟨h1', h2'⟩ <;> omega

/-- A left fold with "replace the accumulator on strictly smaller score"
either keeps the initial accumulator (then the accumulator is minimal), or
stops at the first element strictly better than everything before it and
at least as good as everything after it. -/
lemma foldl_argmin_first {α : Type} (f : α → ℚ) :
    ∀ (l : List α) (a : α),
      (l.foldl (fun acc x => if f x < f acc then x else acc) a = a ∧
        (∀ x ∈ l, f a ≤ f x)) ∨
      (∃ l₁ res l₂, l = l₁ ++ res :: l₂ ∧
        l.foldl (fun acc x => if f x < f acc then x else acc) a = res ∧
        f res < f a ∧ (∀ x ∈ l₁, f res < f x) ∧ (∀ x ∈ l₂, f res ≤ f x)) := by
  intro l
  induction l with
  | nil => intro a; exact Or.inl ⟨rfl, by simp⟩
  | cons y l ih =>
    intro a
    by_cases hy : f y < f a
    · rw [List.foldl_cons, if_pos hy]
      rcases ih y with ⟨heq, hmin⟩ | ⟨l₁, res, l₂, hsplit, hres, hlt, h₁, h₂⟩
      · exact Or.inr ⟨[], y, l, by simp, heq, hy, by simp, hmin⟩
      · refine Or.inr ⟨y :: l₁, res, l₂, by simp [hsplit], hres, lt_trans hlt hy, ?_, h₂⟩
        intro x hx
        rcases List.mem_cons.mp hx with rfl | hx
        · exact hlt
        · exact h₁ x hx
    · rw [List.foldl_cons, if_neg hy]
      push_neg at hy
      rcases ih a with ⟨heq, hmin⟩ | ⟨l₁, res, l₂, hsplit, hres, hlt, h₁, h₂⟩
      · refine Or.inl ⟨heq, ?_⟩
        intro x hx
        rcases List.mem_cons.mp hx with rfl | hx
        · exact hy
        · exact hmin x hx
      · refine Or.inr ⟨y :: l₁, res, l₂, by simp [hsplit], hres, hlt, ?_, h₂⟩
        intro x hx
        rcases List.mem_cons.mp hx with rfl | hx
        · exact lt_of_lt_of_le hlt hy
        · exact h₁ x hx

/-- Membership in the scan order: exactly the pairs `i < j < n`. -/
lemma mem_pairList {n : ℕ} {p : ℕ × ℕ} :
    p ∈ pairList n ↔ p.1 < p.2 ∧ p.2 < n := by
  cases p with
  | mk i j =>
    simp only [pairList, List.mem_flatMap, List.mem_map, List.mem_range, List.mem_range'_1]
    constructor
    · rintro ⟨i', hi', j', ⟨hj1, hj2⟩, h⟩
      cases h
      constructor <;> omega
    · rintro ⟨hij, hjn⟩
      exact ⟨i, by omega, j, by constructor <;> omega, rfl⟩

/-- The scan enumerates pairs in strictly increasing `pairLex` order. -/
lemma pairwise_pairList (n : ℕ) : (pairList n).Pairwise pairLex := by
  rw [pairList, List.pairwise_flatMap]
  constructor
  · intro i _
    rw [List.pairwise_map]
    exact (List.pairwise_lt_range' _ _ 1 (by simp)).imp (fun h => Or.inr ⟨rfl, h⟩)
  · have : (List.range n).Pairwise (· < ·) := List.pairwise_lt_range n
    refine this.imp ?_
    intro i₁ i₂ h x hx y hy
    obtain ⟨j₁, _, rfl⟩ := List.mem_map.mp hx
    obtain ⟨j₂, _, rfl⟩ := List.mem_map.mp hy
    exact Or.inl h

/-- In a `pairLex`-sorted split `l = l₁ ++ res :: l₂`, every member of `l`
that is `pairLex`-before `res` lies in `l₁`. -/
lemma mem_left_of_pairLex {l l₁ l₂ : List (ℕ × ℕ)} {res x : ℕ × ℕ}
    (hp : l.Pairwise pairLex) (hsplit : l = l₁ ++ res :: l₂)
    (hx : x ∈ l) (hlex : pairLex x res) : x ∈ l₁ := by
  subst hsplit
  rcases List.mem_append.mp hx with hx₁ | hx₂
  · exact hx₁
  · rcases List.mem_cons.mp hx₂ with rfl | hx₃
    · exact absurd hlex (pairLex_irrefl _)
    · exfalso
      have : pairLex res x :=
        (List.pairwise_cons.mp (List.pairwise_append.mp hp).2.1).1 x hx₃
      exact pairLex_asymm hlex this


/-- **C3**: in a neighbor-joining iteration over `n` active taxa
(`n > 2`), the pair chosen for merging is the unordered pair `(i, j)`,
`i < j < n`, minimizing `Q(i, j) = (n - 2) * d[i][j] - R_i - R_j` (row
sums over all active taxa), and on ties the earliest pair in the
index-order scan (`i` ascending, then `j` ascending) wins: every valid
pair that precedes the selected one in scan order has a strictly larger
`Q` value. -/
theorem claim_C3_pair_selection (dist : List (List ℚ)) (n : ℕ) (hn : 2 < n) :
    (selectPair dist n).1 < (selectPair dist n).2 ∧ (selectPair dist n).2 < n ∧
    (∀ i j, i < j → j < n →
      qval dist n (selectPair dist n).1 (selectPair dist n).2 ≤ qval dist n i j) ∧
    (∀ i j, i < j → j < n → pairLex (i, j) (selectPair dist n) →
      qval dist n (selectPair dist n).1 (selectPair dist n).2 < qval dist n i j) := by
  rcases foldl_argmin_first (fun p : ℕ × ℕ => qval dist n p.1 p.2) (pairList n) (0, 1) with
    ⟨heq, hmin⟩ | ⟨l₁, res, l₂, hsplit, hres, hlt, h₁, h₂⟩
  · have hsel : selectPair dist n = (0, 1) := heq
    rw [hsel]
    refine ⟨by omega, by omega, ?_, ?_⟩
    · intro i j hij hjn
      exact hmin (i, j) (mem_pairList.mpr ⟨hij, hjn⟩)
    · intro i j hij hjn hlex
      exfalso
      rcases hlex with h | ⟨h1, h2⟩ <;> omega
  · have hsel : selectPair dist n = res := hres
    rw [hsel]
    have hresmem : res ∈ pairList n := by
      rw [hsplit]
      simp
    obtain ⟨hr1, hr2⟩ := mem_pairList.mp hresmem
    refine ⟨hr1, hr2, ?_, ?_⟩
    · intro i j hij hjn
      have hmem : ((i, j) : ℕ × ℕ) ∈ pairList n := mem_pairList.mpr ⟨hij, hjn⟩
      rw [hsplit] at hmem
      rcases List.mem_append.mp hmem with hx₁ | hx₂
      · exact le_of_lt (h₁ _ hx₁)
      · rcases List.mem_cons.mp hx₂ with heq2 | hx₃
        · rw [← heq2]
        · exact h₂ (i, j) hx₃
    · intro i j hij hjn hlex
      have hmem : ((i, j) : ℕ × ℕ) ∈ pairList n := mem_pairList.mpr ⟨hij, hjn⟩
      have hin : ((i, j) : ℕ × ℕ) ∈ l₁ :=
        mem_left_of_pairLex (pairwise_pairList n) hsplit hmem hlex
      exact h₁ (i, j) hin

/-- Witness for C3 on the spec's example matrix with `n = 3`. -/
theorem claim_C3_pair_selection_witness :
    (selectPair [[0, 1, 4], [1, 0, 3], [4, 3, 0]] 3).1 <
        (selectPair [[0, 1, 4], [1, 0, 3], [4, 3, 0]] 3).2 ∧
    (selectPair [[0, 1, 4], [1, 0, 3], [4, 3, 0]] 3).2 < 3 ∧
    (∀ i j, i < j → j < 3 →
      qval [[0, 1, 4], [1, 0, 3], [4, 3, 0]] 3
          (selectPair [[0, 1, 4], [1, 0, 3], [4, 3, 0]] 3).1
          (selectPair [[0, 1, 4], [1, 0, 3], [4, 3, 0]] 3).2 ≤
        qval [[0, 1, 4], [1, 0, 3], [4, 3, 0]] 3 i j) ∧
    (∀ i j, i < j → j < 3 →
      pairLex (i, j) (selectPair [[0, 1, 4], [1, 0, 3], [4, 3, 0]] 3) →
      qval [[0, 1, 4], [1, 0, 3], [4, 3, 0]] 3
          (selectPair [[0, 1, 4], [1, 0, 3], [4, 3, 0]] 3).1
          (selectPair [[0, 1, 4], [1, 0, 3], [4, 3, 0]] 3).2 <
        qval [[0, 1, 4], [1, 0, 3], [4, 3, 0]] 3 i j) :=
  claim_C3_pair_selection [[0, 1, 4], [1, 0, 3], [4, 3, 0]] 3 (by omega)

/-! ## Claim C9: distance-matrix properties -/

/-- Hamming distance is symmetric. -/
lemma hamming_distance_comm (a b : List Char) :
    hamming_distance a b = hamming_distance b a := by
  unfold hamming_distance
  rw [← List.zip_swap a b, List.filter_map, List.length_map]
  congr 1
  apply List.filter_congr
  intro x hx
  simp only [Function.comp_apply, Prod.fst_swap, Prod.snd_swap]
  exact decide_eq_decide.mpr ne_comm

/-- A square `n × n` matrix of rationals, as a list of rows. -/
def SqDims (m : List (List ℚ)) (n : ℕ) : Prop :=
  m.length = n ∧ ∀ row ∈ m, row.length = n

lemma SqDims.row_len {m : List (List ℚ)} {n : ℕ} (h : SqDims m n) {i : ℕ} (hi : i < n) :
    (m.getD i []).length = n := by
  obtain ⟨hl, hr⟩ := h
  have hlt : i < m.length := by omega
  rw [List.getD_eq_getElem?_getD, List.getElem?_eq_getElem hlt]
  exact hr _ (List.getElem_mem hlt)

lemma SqDims.set {m : List (List ℚ)} {n : ℕ} (h : SqDims m n) (i j : ℕ) (v : ℚ) :
    SqDims (matSet m i j v) n := by
  obtain ⟨hl, hr⟩ := h
  by_cases hil : i < m.length
  · refine ⟨by simp [matSet, hl], ?_⟩
    intro row hrow
    rcases List.mem_or_eq_of_mem_set hrow with hmem | rfl
    · exact hr _ hmem
    · rw [List.length_set]
      exact SqDims.row_len ⟨hl, hr⟩ (by omega)
  · unfold matSet
    rw [List.set_eq_of_length_le (by omega)]
    exact ⟨hl, hr⟩

lemma mat_matSet_self {m : List (List ℚ)} {n : ℕ} (h : SqDims m n) {i j : ℕ}
    (hi : i < n) (hj : j < n) (v : ℚ) : mat (matSet m i j v) i j = v := by
  have hl := h.1
  have hil : i < m.length := by omega
  have hjl : j < (m.getD i []).length := by rw [SqDims.row_len h hi]; omega
  rw [List.getD_eq_getElem?_getD] at hjl
  unfold mat matSet
  simp only [List.getD_eq_getElem?_getD]
  rw [List.getElem?_set_self hil, Option.getD_some, List.getElem?_set_self hjl,
    Option.getD_some]

lemma mat_matSet_ne {m : List (List ℚ)} {i j i' j' : ℕ} (v : ℚ)
    (h : i' ≠ i ∨ j' ≠ j) : mat (matSet m i j v) i' j' = mat m i' j' := by
  by_cases hii : i' = i
  · subst hii
    have hj : j' ≠ j := h.resolve_left (not_not_intro rfl)
    by_cases hil : i' < m.length
    · unfold mat matSet
      simp only [List.getD_eq_getElem?_getD]
      rw [List.getElem?_set_self hil, Option.getD_some, List.getElem?_set_ne (Ne.symm hj)]
    · unfold matSet
      rw [List.set_eq_of_length_le (by omega)]
  · unfold mat matSet
    simp only [List.getD_eq_getElem?_getD]
    rw [List.getElem?_set_ne (Ne.symm hii)]

/-- The value the spec assigns to entry `(i, j)`. -/
def targetEntry (seqs : List (List Char)) (i j : ℕ) : ℚ :=
  if i = j then 0
  else (hamming_distance (seqs.getD i []) (seqs.getD j []) : ℚ)

lemma targetEntry_comm (seqs : List (List Char)) (i j : ℕ) :
    targetEntry seqs i j = targetEntry seqs j i := by
  unfold targetEntry
  by_cases h : i = j
  · subst h; rfl
  · rw [if_neg h, if_neg (Ne.symm h), hamming_distance_comm]

/-- Effect of the inner loop of `compute_distance_matrix` from column `j₀`
on: entries `(i, j')` and `(j', i)` with `j₀ ≤ j'` receive the spec value,
all other entries are untouched. -/
lemma dmInner_loop_spec (seqs : List (List Char)) (i : ℕ) (hi : i < seqs.length) :
    ∀ (c j₀ : ℕ) (m : List (List ℚ)), j₀ + c = seqs.length → i ≤ j₀ →
      SqDims m seqs.length →
      SqDims ((List.range' j₀ c).foldl (dmInner seqs i) m) seqs.length ∧
      (∀ i' j', i' < seqs.length → j' < seqs.length →
        mat ((List.range' j₀ c).foldl (dmInner seqs i) m) i' j' =
          if (i' = i ∧ j₀ ≤ j') ∨ (j' = i ∧ j₀ ≤ i') then targetEntry seqs i' j'
          else mat m i' j') := by
  intro c
  induction c with
  | zero =>
    intro j₀ m hsum hij hsq
    simp only [List.range'_zero, List.foldl_nil]
    refine ⟨hsq, ?_⟩
    intro i' j' hi' hj'
    rw [if_neg ?_]
    rintro (⟨rfl, hle⟩ | ⟨rfl, hle⟩) <;> omega
  | succ c ih =>
    intro j₀ m hsum hij hsq
    rw [List.range'_succ, List.foldl_cons]
    have hj₀n : j₀ < seqs.length := by omega
    have hsq' : SqDims (dmInner seqs i m j₀) seqs.length := by
      unfold dmInner
      split
      · exact hsq.set _ _ _
      · exact (hsq.set _ _ _).set _ _ _
    obtain ⟨hsqr, hspec⟩ := ih (j₀ + 1) (dmInner seqs i m j₀) (by omega) (by omega) hsq'
    refine ⟨hsqr, ?_⟩
    intro i' j' hi' hj'
    rw [hspec i' j' hi' hj']
    by_cases hc1 : (i' = i ∧ j₀ + 1 ≤ j') ∨ (j' = i ∧ j₀ + 1 ≤ i')
    · rw [if_pos hc1, if_pos ?_]
      rcases hc1 with ⟨h1, h2⟩ | ⟨h1, h2⟩
      · exact Or.inl ⟨h1, by omega⟩
      · exact Or.inr ⟨h1, by omega⟩
    · rw [if_neg hc1]
      push_neg at hc1
      by_cases hc0 : (i' = i ∧ j₀ ≤ j') ∨ (j' = i ∧ j₀ ≤ i')
      · rw [if_pos hc0]
        rcases hc0 with ⟨h1, h2⟩ | ⟨h1, h2⟩
        · -- the entry is (i, j₀), written at this step
          have hj'j₀ : j' = j₀ := by
            have := hc1.1 h1
            omega
          subst h1
          subst hj'j₀
          unfold dmInner
          split
          · -- i = j₀, diagonal write of 0
            rename_i hd
            rw [← hd, mat_matSet_self hsq hi hi 0]
            unfold targetEntry
            rw [if_pos (by omega)]
          · rename_i hd
            rw [mat_matSet_ne _ (Or.inl (fun hc => hd (by omega))),
              mat_matSet_self hsq hi hj₀n]
            unfold targetEntry
            rw [if_neg hd]
        · -- the entry is (j₀, i), the mirrored write
          have hi'j₀ : i' = j₀ := by
            have := hc1.2 h1
            omega
          subst h1
          subst hi'j₀
          unfold dmInner
          split
          · rename_i hd
            rw [← hd, mat_matSet_self hsq hi hi 0]
            unfold targetEntry
            rw [if_pos (by omega)]
          · rename_i hd
            rw [mat_matSet_self (hsq.set _ _ _) hj₀n hi]
            unfold targetEntry
            rw [if_neg (fun hc => hd hc.symm), hamming_distance_comm]
      · rw [if_neg hc0]
        push_neg at hc0
        unfold dmInner
        split
        · rename_i hd
          rw [mat_matSet_ne]
          by_cases hii : i' = i
          · exact Or.inr (fun hc => absurd (hc0.1 hii) (by omega))
          · exact Or.inl hii
        · rename_i hd
          rw [mat_matSet_ne, mat_matSet_ne]
          · by_cases hii : i' = i
            · exact Or.inr (fun hc => absurd (hc0.1 hii) (by omega))
            · exact Or.inl hii
          · by_cases hjj : j' = i
            · exact Or.inl (fun hc => absurd (hc0.2 hjj) (by omega))
            · exact Or.inr hjj

/-- Effect of the first `k` rounds of the outer loop: all entries with
`min i' j' < k` hold the spec value, the rest are still zero. -/
lemma dm_loop_spec (seqs : List (List Char)) :
    ∀ k : ℕ, k ≤ seqs.length →
      SqDims ((List.range k).foldl
        (fun m i => (List.range' i (seqs.length - i)).foldl (dmInner seqs i) m)
        (List.replicate seqs.length (List.replicate seqs.length (0 : ℚ)))) seqs.length ∧
      (∀ i' j', i' < seqs.length → j' < seqs.length →
        mat ((List.range k).foldl
          (fun m i => (List.range' i (seqs.length - i)).foldl (dmInner seqs i) m)
          (List.replicate seqs.length (List.replicate seqs.length (0 : ℚ)))) i' j' =
          if min i' j' < k then targetEntry seqs i' j' else 0) := by
  intro k
  induction k with
  | zero =>
    intro _
    simp only [List.range_zero, List.foldl_nil]
    refine ⟨⟨by simp, ?_⟩, ?_⟩
    · intro row hrow
      rw [List.eq_of_mem_replicate hrow]
      simp
    · intro i' j' hi' hj'
      rw [if_neg (by omega)]
      unfold mat
      simp only [List.getD_eq_getElem?_getD]
      rw [List.getElem?_replicate, if_pos hi', Option.getD_some,
        List.getElem?_replicate, if_pos hj', Option.getD_some]
  | succ k ih =>
    intro hk
    have hkn : k < seqs.length := hk
    obtain ⟨hsq, hspec⟩ := ih (by omega)
    rw [List.range_succ, List.foldl_append, List.foldl_cons, List.foldl_nil]
    obtain ⟨hsq', hspec'⟩ :=
      dmInner_loop_spec seqs k hkn (seqs.length - k) k _ (by omega) (le_refl k) hsq
    refine ⟨hsq', ?_⟩
    intro i' j' hi' hj'
    rw [hspec' i' j' hi' hj']
    by_cases hc : (i' = k ∧ k ≤ j') ∨ (j' = k ∧ k ≤ i')
    · rw [if_pos hc, if_pos (by omega)]
    · rw [if_neg hc, hspec i' j' hi' hj']
      push_neg at hc
      by_cases hmin : min i' j' < k
      · rw [if_pos hmin, if_pos (by omega)]
      · rw [if_neg hmin, if_neg (by omega)]

/-- The distance matrix is square of dimension `n` and every entry is its
spec value. -/
lemma compute_distance_matrix_spec (seqs : List (List Char)) :
    SqDims (compute_distance_matrix seqs) seqs.length ∧
    ∀ i j, i < seqs.length → j < seqs.length →
      mat (compute_distance_matrix seqs) i j = targetEntry seqs i j := by
  obtain ⟨hsq, hspec⟩ := dm_loop_spec seqs seqs.length (le_refl _)
  refine ⟨hsq, ?_⟩
  intro i j hi hj
  have := hspec i j hi hj
  rw [if_pos (by omega)] at this
  exact this

/-- **C9**: for every list of sequences, the matrix returned by
`compute_distance_matrix` is symmetric, has a zero diagonal, and carries
`hamming_distance(seq_i, seq_j)` at every off-diagonal position (with
`hamming_distance` counting mismatches over the zipped prefix of the two
sequences). -/
theorem claim_C9_distance_matrix (sequences : List (List Char)) (i j : ℕ)
    (hi : i < sequences.length) (hj : j < sequences.length) :
    mat (compute_distance_matrix sequences) i j =
      mat (compute_distance_matrix sequences) j i ∧
    mat (compute_distance_matrix sequences) i i = 0 ∧
    (i ≠ j → mat (compute_distance_matrix sequences) i j =
      (hamming_distance (sequences.getD i []) (sequences.getD j []) : ℚ)) := by
  obtain ⟨hsq, hspec⟩ := compute_distance_matrix_spec sequences
  refine ⟨?_, ?_, ?_⟩
  · rw [hspec i j hi hj, hspec j i hj hi, targetEntry_comm]
  · rw [hspec i i hi hi]
    unfold targetEntry
    rw [if_pos rfl]
  · intro hne
    rw [hspec i j hi hj]
    unfold targetEntry
    rw [if_neg hne]

/-- Witness for C9 on three two-letter sequences. -/
theorem claim_C9_distance_matrix_witness :
    mat (compute_distance_matrix [['A', 'A'], ['A', 'T'], ['T', 'T']]) 0 1 =
      mat (compute_distance_matrix [['A', 'A'], ['A', 'T'], ['T', 'T']]) 1 0 ∧
    mat (compute_distance_matrix [['A', 'A'], ['A', 'T'], ['T', 'T']]) 0 0 = 0 ∧
    (0 ≠ 1 → mat (compute_distance_matrix [['A', 'A'], ['A', 'T'], ['T', 'T']]) 0 1 =
      (hamming_distance (([['A', 'A'], ['A', 'T'], ['T', 'T']] :
        List (List Char)).getD 0 []) (([['A', 'A'], ['A', 'T'], ['T', 'T']] :
        List (List Char)).getD 1 []) : ℚ)) :=
  claim_C9_distance_matrix [['A', 'A'], ['A', 'T'], ['T', 'T']] 0 1 (by decide) (by decide)

/-! ## Claim C4: Phase A of the heuristic builder -/

/-- The caterpillar walk exactly as the spec words it, used as the
reference for the refinement claim: attach the whole tree so far as left
child and a fresh leaf as right child, with branch distance the
Jukes-Cantor distance between the most recently attached taxon's sequence
and the new taxon's sequence. -/
noncomputable def catSpecGo (cur : TreeNode) (lastSeq : List Char) :
    List (String × List Char) → Option TreeNode
  | [] => some cur
  | (nm, sq) :: rest => do
      let d ← (jukes_cantor_distance lastSeq sq).store
      catSpecGo (TreeNode.mk nm (some cur) (some (TreeNode.mk nm none none 0)) d) sq rest

/-- The spec's Phase A ("sequential/caterpillar insertion"), walking the
taxa in the stated order, starting from a single leaf for the first one. -/
noncomputable def caterpillarOfSpec : List (String × List Char) → Option TreeNode
  | [] => none
  | (n0, s0) :: rest => catSpecGo (TreeNode.mk n0 none none 0) s0 rest

/-- A nonempty first sequence makes the Jukes-Cantor value storable. -/
lemma jc_store_isSome {a b : List Char} (ha : a ≠ []) :
    ∃ d, (jukes_cantor_distance a b).store = some d := by
  have ha' : ¬ (a.length = 0) := by simpa using ha
  simp only [jukes_cantor_distance, if_neg ha']
  split
  · exact ⟨⊤, rfl⟩
  · exact ⟨_, rfl⟩

/-- With distinct keys, `lookup` finds exactly the paired value. -/
lemma lookup_of_nodup {β : Type} {order : List (String × β)}
    (hnd : (order.map Prod.fst).Nodup) {p : String × β} (hp : p ∈ order) :
    order.lookup p.1 = some p.2 := by
  induction order with
  | nil => simp at hp
  | cons q rest ih =>
    obtain ⟨k, v⟩ := q
    rcases List.mem_cons.mp hp with rfl | hp'
    · simp [List.lookup]
    · have hnd' : (k :: rest.map Prod.fst).Nodup := by simpa using hnd
      have hq : k ≠ p.1 := by
        intro hc
        have hm : p.1 ∈ rest.map Prod.fst := List.mem_map.mpr ⟨p, hp', rfl⟩
        rw [← hc] at hm
        exact (List.nodup_cons.mp hnd').1 hm
      have hb : (p.1 == k) = false := beq_eq_false_iff_ne.mpr (fun hc => hq hc.symm)
      rw [List.lookup, hb]
      exact ih (List.nodup_cons.mp hnd').2 hp'

/-- The source fold and the spec walk build the same caterpillar, which is
strictly binary with the expected leaves and internal count. -/
lemma initTree_go_spec (order : List (String × List Char))
    (hnd : (order.map Prod.fst).Nodup) :
    ∀ (rest : List (String × List Char)) (cur : TreeNode) (lastSeq : List Char),
      (∀ p ∈ rest, p ∈ order) →
      order.lookup cur.name = some lastSeq → lastSeq ≠ [] →
      (∀ p ∈ rest, p.2 ≠ []) →
      strictBinary cur = true →
      List.foldlM (initStep order) cur rest = catSpecGo cur lastSeq rest ∧
      ∃ t, catSpecGo cur lastSeq rest = some t ∧
        leafNames t = leafNames cur ++ rest.map Prod.fst ∧
        internalCount t = internalCount cur + rest.length ∧
        strictBinary t = true := by
  intro rest
  induction rest with
  | nil =>
    intro cur lastSeq _ _ _ _ hsb
    exact ⟨rfl, cur, rfl, by simp, by simp, hsb⟩
  | cons q rest ih =>
    intro cur lastSeq hsub hlook hne hseqs hsb
    obtain ⟨nm, sq⟩ := q
    have hq : ((nm, sq) : String × List Char) ∈ order := hsub _ (by simp)
    have hlooknm : order.lookup nm = some sq := lookup_of_nodup hnd hq
    obtain ⟨d, hd⟩ := jc_store_isSome (b := sq) hne
    have hstep : initStep order cur (nm, sq) =
        some (TreeNode.mk nm (some cur) (some (TreeNode.mk nm none none 0)) d) := by
      unfold initStep lookupSeq
      rw [hlook, hlooknm]
      simp only [Option.bind_eq_bind, Option.some_bind, hd]
    have hsqne : sq ≠ [] := hseqs (nm, sq) (by simp)
    obtain ⟨heq, t, hsome, hleaf, hint, hsb'⟩ :=
      ih (TreeNode.mk nm (some cur) (some (TreeNode.mk nm none none 0)) d) sq
        (fun p hp => hsub p (by simp [hp]))
        hlooknm hsqne
        (fun p hp => hseqs p (by simp [hp]))
        (by simp [strictBinary, hsb])
    refine ⟨?_, t, ?_, ?_, ?_, hsb'⟩
    · rw [List.foldlM_cons, hstep]
      simp only [Option.bind_eq_bind, Option.some_bind]
      rw [heq]
      simp only [catSpecGo, Option.bind_eq_bind, hd, Option.some_bind]
    · simp only [catSpecGo, Option.bind_eq_bind, hd, Option.some_bind]
      exact hsome
    · rw [hleaf]
      simp [leafNames]
    · rw [hint]
      simp [internalCount]
      omega
    
/-- **C4** (counterexample): Phase A does NOT walk the taxa in input
order.  The source iterates `sequences.keys()` of a `HashMap`, whose order
is an unspecified permutation of the input: for the input
`[("A","A"), ("B","A")]` the iteration order `[("B","A"), ("A","A")]` (a
permutation of the input, hence an admissible hash-map order) produces a
tree rooted at `"A"` with the `"B"` leaf first — not the input-order
caterpillar. -/
theorem claim_C4_order_counterexample :
    ([("B", ['A']), ("A", ['A'])] : List (String × List Char)).Perm
      [("A", ['A']), ("B", ['A'])] ∧
    build_initial_tree [("B", ['A']), ("A", ['A'])] ≠
      caterpillarOfSpec [("A", ['A']), ("B", ['A'])] := by
  refine ⟨by decide, ?_⟩
  intro h
  have h1 : (build_initial_tree [("B", ['A']), ("A", ['A'])]).map TreeNode.name =
      some "A" := by
    obtain ⟨d, hd⟩ := jc_store_isSome (a := ['A']) (b := ['A']) (by simp)
    have hstep : initStep [("B", ['A']), ("A", ['A'])] (TreeNode.mk "B" none none 0)
        ("A", ['A']) = some (TreeNode.mk "A" (some (TreeNode.mk "B" none none 0))
          (some (TreeNode.mk "A" none none 0)) d) := by
      unfold initStep lookupSeq
      simp [List.lookup, TreeNode.name, hd]
    show (([("A", ['A'])] : List (String × List Char)).foldlM
      (initStep [("B", ['A']), ("A", ['A'])]) (TreeNode.mk "B" none none 0)).map
        TreeNode.name = some "A"
    rw [List.foldlM_cons, hstep]
    simp [TreeNode.name]
  have h2 : (caterpillarOfSpec [("A", ['A']), ("B", ['A'])]).map TreeNode.name =
      some "B" := by
    obtain ⟨d, hd⟩ := jc_store_isSome (a := ['A']) (b := ['A']) (by simp)
    show (catSpecGo (TreeNode.mk "A" none none 0) ['A'] [("B", ['A'])]).map
      TreeNode.name = some "B"
    unfold catSpecGo
    rw [hd]
    simp [catSpecGo, TreeNode.name]
  rw [h] at h1
  rw [h1] at h2
  exact absurd (Option.some_inj.mp h2) (by decide)

/-- **C4** (amended): the builder walks the taxa in the iteration order of
the internal hash map — an unspecified permutation of the input, supplied
here as `order` — rather than input order.  For every nonempty order with
distinct identifiers and nonempty sequences, it builds exactly the spec's
caterpillar over that order: each step attaches the whole tree so far as
left child and a fresh leaf as right child with the Jukes-Cantor branch
distance between the most recently attached taxon and the new one, giving
leaves in walk order and `n - 1` internal nodes for `n` taxa. -/
theorem claim_C4_amended (order : List (String × List Char)) (hne : order ≠ [])
    (hnd : (order.map Prod.fst).Nodup) (hseq : ∀ p ∈ order, p.2 ≠ []) :
    build_initial_tree order = caterpillarOfSpec order ∧
    ∃ t, build_initial_tree order = some t ∧
      leafNames t = order.map Prod.fst ∧
      internalCount t = order.length - 1 ∧
      strictBinary t = true := by
  match order, hne with
  | (n0, s0) :: rest, _ =>
    have h0 : ((n0, s0) : String × List Char) ∈ (n0, s0) :: rest := by simp
    obtain ⟨heq, t, hsome, hleaf, hint, hsb⟩ :=
      initTree_go_spec ((n0, s0) :: rest) hnd rest (TreeNode.mk n0 none none 0) s0
        (fun p hp => by simp [hp])
        (lookup_of_nodup hnd h0) (hseq _ h0) (fun p hp => hseq p (by simp [hp])) rfl
    have hbuild : build_initial_tree ((n0, s0) :: rest) =
        rest.foldlM (initStep ((n0, s0) :: rest)) (TreeNode.mk n0 none none 0) := rfl
    refine ⟨?_, t, ?_, ?_, ?_, hsb⟩
    · rw [hbuild, heq]
      rfl
    · rw [hbuild, heq]
      exact hsome
    · rw [hleaf]
      simp [leafNames]
    · rw [hint]
      simp [internalCount]

/-- Witness for the amended C4 at a concrete two-taxon order. -/
theorem claim_C4_amended_witness :
    build_initial_tree [("A", ['A']), ("B", ['C'])] =
      caterpillarOfSpec [("A", ['A']), ("B", ['C'])] ∧
    ∃ t, build_initial_tree [("A", ['A']), ("B", ['C'])] = some t ∧
      leafNames t = ([("A", ['A']), ("B", ['C'])] : List (String × List Char)).map
        Prod.fst ∧
      internalCount t = ([("A", ['A']), ("B", ['C'])] :
        List (String × List Char)).length - 1 ∧
      strictBinary t = true :=
  claim_C4_amended [("A", ['A']), ("B", ['C'])] (by decide) (by decide) (by decide)

/-! ## Claim C2: shape of the neighbor-joining tree

The builder keys its node map by name, and every merge forms the
composite name `"(" ++ a ++ "," ++ b ++ ")"`.  To track the map across the
loop we record the merge history of every active node as a grammar tree
`GT` whose rendered name is exactly the node's key, and prove the
rendering injective for identifiers free of `'('`, `')'` and `','`. -/

/-- Merge history of an active node: an input taxon, or a merge of two
earlier nodes. -/
inductive GT where
  | leaf (id : String) : GT
  | node (l r : GT) : GT

/-- The name the builder gives this node. -/
def GT.repr : GT → String
  | .leaf id => id
  | .node l r => "(" ++ GT.repr l ++ "," ++ GT.repr r ++ ")"

/-- The input identifiers below this node, left to right. -/
def GT.leaves : GT → List String
  | .leaf id => [id]
  | .node l r => GT.leaves l ++ GT.leaves r

/-- A character that cannot be confused with the composite-name syntax. -/
def cleanChar (c : Char) : Prop := c ≠ '(' ∧ c ≠ ')' ∧ c ≠ ','

/-- An identifier free of `'('`, `')'` and `','`. -/
def cleanStr (s : String) : Prop := ∀ c ∈ s.data, cleanChar c

/-- All identifiers under this node are clean. -/
def GT.clean (g : GT) : Prop := ∀ id ∈ g.leaves, cleanStr id

lemma GT.leaves_ne_nil : ∀ g : GT, g.leaves ≠ []
  | .leaf id => by simp [GT.leaves]
  | .node l r => by
    simp only [GT.leaves, ne_eq, List.append_eq_nil]
    rintro ⟨h1, _⟩
    exact GT.leaves_ne_nil l h1

lemma GT.clean_left {l r : GT} (h : (GT.node l r).clean) : l.clean := by
  intro id hid
  exact h id (by simp [GT.leaves, hid])

lemma GT.clean_right {l r : GT} (h : (GT.node l r).clean) : r.clean := by
  intro id hid
  exact h id (by simp [GT.leaves, hid])

lemma repr_node_data_append (l r : GT) (rest : List Char) :
    (GT.node l r).repr.data ++ rest =
      '(' :: (l.repr.data ++ (',' :: (r.repr.data ++ (')' :: rest)))) := by
  show ("(" ++ GT.repr l ++ "," ++ GT.repr r ++ ")").data ++ rest = _
  simp [String.data_append]

/-- A list of characters that may legally follow a rendered name: nothing,
a comma, or a closing parenthesis. -/
def follower (r : List Char) : Prop := r = [] ∨ ∃ t, r = ',' :: t ∨ r = ')' :: t

/-- Clean identifier segments followed by separators cut uniquely. -/
lemma clean_prefix_cancel : ∀ (l₁ l₂ r₁ r₂ : List Char),
    (∀ c ∈ l₁, cleanChar c) → (∀ c ∈ l₂, cleanChar c) →
    follower r₁ → follower r₂ →
    l₁ ++ r₁ = l₂ ++ r₂ → l₁ = l₂ ∧ r₁ = r₂ := by
  intro l₁
  induction l₁ with
  | nil =>
    intro l₂ r₁ r₂ hc1 hc2 hf1 hf2 heq
    cases l₂ with
    | nil => exact ⟨rfl, by simpa using heq⟩
    | cons c l₂' =>
      exfalso
      simp only [List.nil_append, List.cons_append] at heq
      have hcclean := hc2 c (by simp)
      rcases hf1 with rfl | ⟨t, rfl | rfl⟩
      · exact (List.cons_ne_nil _ _) heq.symm
      · exact hcclean.2.2 (by injection heq with h1 _; exact h1.symm)
      · exact hcclean.2.1 (by injection heq with h1 _; exact h1.symm)
  | cons c l₁' ih =>
    intro l₂ r₁ r₂ hc1 hc2 hf1 hf2 heq
    cases l₂ with
    | nil =>
      exfalso
      simp only [List.cons_append, List.nil_append] at heq
      have hcclean := hc1 c (by simp)
      rcases hf2 with rfl | ⟨t, rfl | rfl⟩
      · exact (List.cons_ne_nil _ _) heq
      · exact hcclean.2.2 (by injection heq)
      · exact hcclean.2.1 (by injection heq)
    | cons c' l₂' =>
      simp only [List.cons_append, List.cons.injEq] at heq
      obtain ⟨rfl, heq'⟩ := heq
      obtain ⟨h1, h2⟩ := ih l₂' r₁ r₂ (fun x hx => hc1 x (by simp [hx]))
        (fun x hx => hc2 x (by simp [hx])) hf1 hf2 heq'
      exact ⟨by rw [h1], h2⟩

/-- Rendered names of clean grammar trees, followed by separators, cut
uniquely: the grammar is unambiguous. -/
lemma repr_append_cancel : ∀ (g₁ g₂ : GT) (r₁ r₂ : List Char),
    g₁.clean → g₂.clean → follower r₁ → follower r₂ →
    g₁.repr.data ++ r₁ = g₂.repr.data ++ r₂ → g₁ = g₂ ∧ r₁ = r₂
  | .leaf id₁, .leaf id₂, r₁, r₂, hc1, hc2, hf1, hf2, heq => by
    have hcs1 : cleanStr id₁ := hc1 id₁ (by simp [GT.leaves])
    have hcs2 : cleanStr id₂ := hc2 id₂ (by simp [GT.leaves])
    obtain ⟨h1, h2⟩ := clean_prefix_cancel id₁.data id₂.data r₁ r₂ hcs1 hcs2 hf1 hf2 heq
    refine ⟨?_, h2⟩
    rw [String.ext h1]
  | .leaf id₁, .node a₂ b₂, r₁, r₂, hc1, hc2, hf1, hf2, heq => by
    exfalso
    rw [repr_node_data_append] at heq
    have hcs1 : cleanStr id₁ := hc1 id₁ (by simp [GT.leaves])
    cases hid : id₁.data with
    | nil =>
      rw [show (GT.leaf id₁).repr.data = id₁.data from rfl, hid] at heq
      simp only [List.nil_append] at heq
      rcases hf1 with rfl | ⟨t, rfl | rfl⟩
      · exact (List.cons_ne_nil _ _) heq.symm
      · injection heq with h1 _
        exact absurd h1 (by decide)
      · injection heq with h1 _
        exact absurd h1 (by decide)
    | cons c cs =>
      rw [show (GT.leaf id₁).repr.data = id₁.data from rfl, hid] at heq
      simp only [List.cons_append] at heq
      injection heq with h1 _
      have := hcs1 c (by rw [hid]; simp)
      exact this.1 h1
  | .node a₁ b₁, .leaf id₂, r₁, r₂, hc1, hc2, hf1, hf2, heq => by
    exfalso
    rw [repr_node_data_append] at heq
    have hcs2 : cleanStr id₂ := hc2 id₂ (by simp [GT.leaves])
    cases hid : id₂.data with
    | nil =>
      rw [show (GT.leaf id₂).repr.data = id₂.data from rfl, hid] at heq
      simp only [List.nil_append] at heq
      rcases hf2 with rfl | ⟨t, rfl | rfl⟩
      · exact (List.cons_ne_nil _ _) heq
      · injection heq with h1 _
        exact absurd h1 (by decide)
      · injection heq with h1 _
        exact absurd h1 (by decide)
    | cons c cs =>
      rw [show (GT.leaf id₂).repr.data = id₂.data from rfl, hid] at heq
      simp only [List.cons_append] at heq
      injection heq with h1 _
      have := hcs2 c (by rw [hid]; simp)
      exact this.1 h1.symm
  | .node a₁ b₁, .node a₂ b₂, r₁, r₂, hc1, hc2, hf1, hf2, heq => by
    rw [repr_node_data_append, repr_node_data_append] at heq
    injection heq with _ heq
    obtain ⟨ha, htail⟩ := repr_append_cancel a₁ a₂ _ _ (GT.clean_left hc1)
      (GT.clean_left hc2) (Or.inr ⟨_, Or.inl rfl⟩) (Or.inr ⟨_, Or.inl rfl⟩) heq
    injection htail with _ htail
    obtain ⟨hb, hrest⟩ := repr_append_cancel b₁ b₂ _ _ (GT.clean_right hc1)
      (GT.clean_right hc2) (Or.inr ⟨_, Or.inr rfl⟩) (Or.inr ⟨_, Or.inr rfl⟩) htail
    injection hrest with _ hrest
    exact ⟨by rw [ha, hb], hrest⟩

/-- Injectivity of the rendered name on clean grammar trees. -/
lemma repr_inj {g₁ g₂ : GT} (h₁ : g₁.clean) (h₂ : g₂.clean)
    (h : g₁.repr = g₂.repr) : g₁ = g₂ :=
  (repr_append_cancel g₁ g₂ [] [] h₁ h₂ (Or.inl rfl) (Or.inl rfl)
    (by rw [congrArg String.data h])).1

/-! ### Association-map lemmas for the node map -/

lemma mapFind_mapErase_ne (m : List (String × TreeNode)) {k k' : String} (h : k' ≠ k) :
    mapFind (mapErase m k) k' = mapFind m k' := by
  induction m with
  | nil => rfl
  | cons q rest ih =>
    obtain ⟨a, v⟩ := q
    by_cases ha : a = k
    · have ht : (((a, v) : String × TreeNode).1 == k) = true := by simp [ha]
      unfold mapErase
      rw [List.eraseP_cons, ht]
      show mapFind rest k' = mapFind ((a, v) :: rest) k'
      unfold mapFind
      rw [List.lookup]
      have hb : (k' == a) = false := beq_eq_false_iff_ne.mpr (ha ▸ h)
      rw [hb]
    · have ht : (((a, v) : String × TreeNode).1 == k) = false := by simp [ha]
      unfold mapErase
      rw [List.eraseP_cons, ht]
      show mapFind ((a, v) :: List.eraseP (fun p => p.1 == k) rest) k' = _
      unfold mapFind
      rw [List.lookup, List.lookup]
      cases hk'a : (k' == a)
      · exact ih
      · rfl

lemma lookup_replace_self (k : String) (v : TreeNode) :
    ∀ m : List (String × TreeNode), m.any (fun p => p.1 = k) = true →
      (m.map (fun p => if p.1 = k then (k, v) else p)).lookup k = some v := by
  intro m
  induction m with
  | nil => intro hex; simp at hex
  | cons q rest ih =>
    intro hex
    obtain ⟨a, w⟩ := q
    by_cases ha : a = k
    · rw [List.map_cons, if_pos ha, List.lookup]
      simp
    · rw [List.map_cons, if_neg ha, List.lookup]
      have hb : (k == a) = false := beq_eq_false_iff_ne.mpr (fun hc => ha hc.symm)
      rw [hb]
      apply ih
      simp only [List.any_cons, Bool.or_eq_true, decide_eq_true_eq] at hex
      rcases hex with hc | hc
      · exact absurd hc ha
      · exact hc

lemma lookup_replace_ne (k k' : String) (v : TreeNode) (h : k' ≠ k) :
    ∀ m : List (String × TreeNode),
      (m.map (fun p => if p.1 = k then (k, v) else p)).lookup k' = m.lookup k' := by
  intro m
  induction m with
  | nil => rfl
  | cons q rest ih =>
    obtain ⟨a, w⟩ := q
    by_cases ha : a = k
    · rw [List.map_cons, if_pos ha, List.lookup, List.lookup]
      have hb : (k' == k) = false := beq_eq_false_iff_ne.mpr h
      have hb' : (k' == a) = false := beq_eq_false_iff_ne.mpr (ha ▸ h)
      rw [hb, hb']
      exact ih
    · rw [List.map_cons, if_neg ha, List.lookup, List.lookup]
      cases hk'a : (k' == a)
      · exact ih
      · rfl

lemma lookup_append_single_self (m : List (String × TreeNode)) (k : String) (v : TreeNode)
    (hex : m.any (fun p => p.1 = k) = false) :
    (m ++ [(k, v)]).lookup k = some v := by
  induction m with
  | nil => simp [List.lookup]
  | cons q rest ih =>
    obtain ⟨a, w⟩ := q
    simp only [List.any_cons, Bool.or_eq_false_iff, decide_eq_false_iff_not] at hex
    rw [List.cons_append, List.lookup]
    have hb : (k == a) = false := beq_eq_false_iff_ne.mpr (fun hc => hex.1 hc.symm)
    rw [hb]
    exact ih (by simpa using hex.2)

lemma lookup_append_single_ne (m : List (String × TreeNode)) (k k' : String) (v : TreeNode)
    (h : k' ≠ k) : (m ++ [(k, v)]).lookup k' = m.lookup k' := by
  induction m with
  | nil =>
    simp only [List.nil_append, List.lookup]
    have hb : (k' == k) = false := beq_eq_false_iff_ne.mpr h
    rw [hb]
  | cons q rest ih =>
    obtain ⟨a, w⟩ := q
    rw [List.cons_append, List.lookup, List.lookup]
    cases hk'a : (k' == a)
    · exact ih
    · rfl

lemma mapFind_mapInsert_self (m : List (String × TreeNode)) (k : String) (v : TreeNode) :
    mapFind (mapInsert m k v) k = some v := by
  unfold mapInsert mapFind
  cases hex : m.any (fun p => p.1 = k)
  · rw [if_neg (by simp [hex])]
    exact lookup_append_single_self m k v hex
  · rw [if_pos (by simp [hex])]
    exact lookup_replace_self k v m hex

lemma mapFind_mapInsert_ne (m : List (String × TreeNode)) {k k' : String} (v : TreeNode)
    (h : k' ≠ k) : mapFind (mapInsert m k v) k' = mapFind m k' := by
  unfold mapInsert mapFind
  by_cases hex : m.any (fun p => p.1 = k) = true
  · rw [if_pos hex]
    exact lookup_replace_ne k k' v h m
  · rw [if_neg hex]
    exact lookup_append_single_ne m k k' v h

lemma keys_nodup_mapInsert (m : List (String × TreeNode)) (k : String) (v : TreeNode)
    (h : (m.map Prod.fst).Nodup) : ((mapInsert m k v).map Prod.fst).Nodup := by
  unfold mapInsert
  by_cases hex : m.any (fun p => p.1 = k) = true
  · rw [if_pos hex]
    have hkeys : (m.map (fun p => if p.1 = k then (k, v) else p)).map Prod.fst =
        m.map Prod.fst := by
      rw [List.map_map]
      apply List.map_congr_left
      intro p hp
      by_cases hpk : p.1 = k
      · simp [hpk]
      · simp [hpk]
    rw [hkeys]
    exact h
  · rw [if_neg hex, List.map_append]
    refine List.Nodup.append h (by simp) ?_
    intro x hx hx'
    simp only [List.map_cons, List.map_nil, List.mem_singleton] at hx'
    subst hx'
    obtain ⟨p, hp, hpk⟩ := List.mem_map.mp hx
    exact absurd (List.any_eq_true.mpr ⟨p, hp, by simp [hpk]⟩) hex

lemma keys_nodup_mapErase (m : List (String × TreeNode)) (k : String)
    (h : (m.map Prod.fst).Nodup) : ((mapErase m k).map Prod.fst).Nodup :=
  ((List.eraseP_sublist m).map Prod.fst).nodup h

/-- With distinct names, the initial node map is literally the list of
name-keyed leaves. -/
lemma njInit_go_eq : ∀ (names : List String) (m : List (String × TreeNode)),
    (∀ n ∈ names, ∀ p ∈ m, p.1 ≠ n) → names.Nodup →
    names.foldl (fun m name => mapInsert m name (TreeNode.mk name none none 0)) m =
      m ++ names.map (fun n => (n, TreeNode.mk n none none 0)) := by
  intro names
  induction names with
  | nil => intro m _ _; simp
  | cons n names ih =>
    intro m hdis hnd
    rw [List.foldl_cons]
    have hins : mapInsert m n (TreeNode.mk n none none 0) =
        m ++ [(n, TreeNode.mk n none none 0)] := by
      unfold mapInsert
      rw [if_neg ?_]
      simp only [List.any_eq_true, decide_eq_true_eq, not_exists, not_and]
      intro p hp
      exact hdis n (by simp) p hp
    rw [hins, ih (m ++ [(n, TreeNode.mk n none none 0)]) ?_ (List.nodup_cons.mp hnd).2]
    · simp
    · intro n' hn' p hp
      rcases List.mem_append.mp hp with hp1 | hp2
      · exact hdis n' (by simp [hn']) p hp1
      · simp only [List.mem_singleton] at hp2
        subst hp2
        intro hc
        have hc' : n = n' := hc
        exact (List.nodup_cons.mp hnd).1 (by rw [hc']; exact hn')

lemma njInit_eq (names : List String) (hnd : names.Nodup) :
    njInit names = names.map (fun n => (n, TreeNode.mk n none none 0)) := by
  unfold njInit
  rw [njInit_go_eq names [] (by simp) hnd]
  simp

/-! ### Permutation helpers -/

lemma map_eraseIdx {α β : Type} (f : α → β) :
    ∀ (l : List α) (i : ℕ), (l.eraseIdx i).map f = (l.map f).eraseIdx i
  | [], _ => by simp
  | a :: l, 0 => by simp [List.eraseIdx]
  | a :: l, i + 1 => by
    simp only [List.eraseIdx, List.map_cons]
    rw [map_eraseIdx f l i]

lemma perm_getElem_cons_eraseIdx {α : Type} (l : List α) (i : ℕ) (h : i < l.length) :
    l.Perm (l.get ⟨i, h⟩ :: l.eraseIdx i) := by
  conv_lhs => rw [← List.take_append_drop i l, List.drop_eq_getElem_cons h]
  rw [List.eraseIdx_eq_take_drop_succ]
  exact List.perm_middle

/-! ### The builder invariant -/

/-- Correspondence between a merge history and the tree the builder holds
for it (branch distances unconstrained). -/
def Matches : GT → TreeNode → Prop
  | .leaf id, t => ∃ d, t = TreeNode.mk id none none d
  | .node l r, t => ∃ tl tr d, t = TreeNode.mk (GT.node l r).repr (some tl) (some tr) d ∧
      Matches l tl ∧ Matches r tr

lemma Matches.sb : ∀ (g : GT) (t : TreeNode), Matches g t → strictBinary t = true
  | .leaf _, t, h => by
    obtain ⟨d, rfl⟩ := h
    rfl
  | .node l r, t, h => by
    obtain ⟨tl, tr, d, rfl, hl, hr⟩ := h
    simp only [strictBinary, Bool.and_eq_true]
    exact ⟨Matches.sb l tl hl, Matches.sb r tr hr⟩

lemma Matches.leaf_names : ∀ (g : GT) (t : TreeNode), Matches g t → leafNames t = g.leaves
  | .leaf _, t, h => by
    obtain ⟨d, rfl⟩ := h
    rfl
  | .node l r, t, h => by
    obtain ⟨tl, tr, d, rfl, hl, hr⟩ := h
    simp only [leafNames, GT.leaves]
    rw [Matches.leaf_names l tl hl, Matches.leaf_names r tr hr]

lemma Matches.internal :
    ∀ (g : GT) (t : TreeNode), Matches g t → internalCount t = g.leaves.length - 1
  | .leaf _, t, h => by
    obtain ⟨d, rfl⟩ := h
    rfl
  | .node l r, t, h => by
    obtain ⟨tl, tr, d, rfl, hl, hr⟩ := h
    simp only [internalCount, GT.leaves, List.length_append]
    rw [Matches.internal l tl hl, Matches.internal r tr hr]
    have h1 : l.leaves.length ≠ 0 := by
      simp only [ne_eq, List.length_eq_zero]
      exact GT.leaves_ne_nil l
    have h2 : r.leaves.length ≠ 0 := by
      simp only [ne_eq, List.length_eq_zero]
      exact GT.leaves_ne_nil r
    omega

/-- The loop invariant of `build_phylogenetic_tree`, with `gts` the ghost
merge histories of the active nodes in name-list order. -/
structure InvW (ids : List String) (n : ℕ) (st : NJState) (gts : List GT) : Prop where
  names_eq : st.node_names = gts.map GT.repr
  n_names : st.node_names.length = n
  leaves_perm : (gts.flatMap GT.leaves).Perm ids
  ids_nodup : ids.Nodup
  ids_clean : ∀ id ∈ ids, cleanStr id
  keys_nodup : (st.tree_nodes.map Prod.fst).Nodup
  finds : ∀ g ∈ gts, ∃ t, mapFind st.tree_nodes g.repr = some t ∧ Matches g t

/-- The selected pair is always a valid scan pair. -/
lemma selectPair_bounds (dist : List (List ℚ)) (n : ℕ) (hn : 2 ≤ n) :
    (selectPair dist n).1 < (selectPair dist n).2 ∧ (selectPair dist n).2 < n := by
  rcases foldl_argmin_first (fun p : ℕ × ℕ => qval dist n p.1 p.2) (pairList n) (0, 1) with
    ⟨heq, _⟩ | ⟨l₁, res, l₂, hsplit, hres, _, _, _⟩
  · have hsel : selectPair dist n = (0, 1) := heq
    rw [hsel]
    exact ⟨by omega, by omega⟩
  · have hsel : selectPair dist n = res := hres
    rw [hsel]
    refine mem_pairList.mp ?_
    rw [hsplit]
    simp

lemma gts_extract {gts : List GT} {i j : ℕ} (hij : i < j) (hj : j < gts.length) :
    gts.Perm (gts.get ⟨j, hj⟩ :: gts.get ⟨i, by omega⟩ :: (gts.eraseIdx j).eraseIdx i) := by
  have h1 := perm_getElem_cons_eraseIdx gts j hj
  have hlen : i < (gts.eraseIdx j).length := by
    rw [List.length_eraseIdx_of_lt hj]
    omega
  have h2 := perm_getElem_cons_eraseIdx (gts.eraseIdx j) i hlen
  have hget : (gts.eraseIdx j).get ⟨i, hlen⟩ = gts.get ⟨i, by omega⟩ := by
    simp only [List.get_eq_getElem]
    exact List.getElem_eraseIdx_of_lt gts j i hlen hij
  refine h1.trans ?_
  rw [← hget]
  exact h2.cons _

lemma leaves_disjoint_of_perm {gts : List GT} {gj gi : GT} {rest : List GT}
    (hperm : gts.Perm (gj :: gi :: rest)) (hfm : (gts.flatMap GT.leaves).Nodup) :
    (∀ x ∈ gj.leaves, x ∉ gi.leaves) ∧
    (∀ x ∈ gj.leaves, x ∉ rest.flatMap GT.leaves) ∧
    (∀ x ∈ gi.leaves, x ∉ rest.flatMap GT.leaves) := by
  have h2 : ((gj :: gi :: rest).flatMap GT.leaves).Nodup :=
    (hperm.flatMap_right GT.leaves).nodup hfm
  simp only [List.flatMap_cons] at h2
  have d1 := List.disjoint_of_nodup_append h2
  have h3 : (gi.leaves ++ rest.flatMap GT.leaves).Nodup := h2.of_append_right
  have d2 := List.disjoint_of_nodup_append h3
  refine ⟨?_, ?_, d2⟩
  · intro x hx hx'
    exact d1 hx (List.mem_append.mpr (Or.inl hx'))
  · intro x hx hx'
    exact d1 hx (List.mem_append.mpr (Or.inr hx'))

/-- Distinct leaf sets force distinct rendered names. -/
lemma repr_ne_of_leaf_witness {g g' : GT} (hc : g.clean) (hc' : g'.clean)
    (hne : ∃ x ∈ g.leaves, x ∉ g'.leaves) : g.repr ≠ g'.repr := by
  intro h
  obtain ⟨x, hx1, hx2⟩ := hne
  rw [repr_inj hc hc' h] at hx1
  exact hx2 hx1

/-- One merge iteration succeeds and preserves the invariant, consuming
the two selected histories and appending their merge. -/
lemma njStep_inv {ids : List String} {n : ℕ} {st : NJState} {gts : List GT}
    (hinv : InvW ids n st gts) (h3 : 3 ≤ n) :
    ∃ st' gts', njStep n st = some st' ∧ InvW ids (n - 1) st' gts' := by
  obtain ⟨hnames, hlen, hperm, hnd, hclean, hknd, hfinds⟩ := hinv
  obtain ⟨hij, hjn⟩ := selectPair_bounds st.dist n (by omega)
  have hglen : gts.length = n := by
    have h := hlen
    rw [hnames, List.length_map] at h
    exact h
  have hmig : (selectPair st.dist n).1 < gts.length := by omega
  have hmjg : (selectPair st.dist n).2 < gts.length := by omega
  set mi := (selectPair st.dist n).1 with hmi
  set mj := (selectPair st.dist n).2 with hmj
  set gi := gts.get ⟨mi, hmig⟩ with hgi
  set gj := gts.get ⟨mj, hmjg⟩ with hgj
  set rest := (gts.eraseIdx mj).eraseIdx mi with hrest
  have hgi_mem : gi ∈ gts := by
    rw [hgi, List.get_eq_getElem]
    exact List.getElem_mem hmig
  have hgj_mem : gj ∈ gts := by
    rw [hgj, List.get_eq_getElem]
    exact List.getElem_mem hmjg
  have hrest_sub : ∀ g ∈ rest, g ∈ gts := by
    intro g hg
    rw [hrest] at hg
    exact List.mem_of_mem_eraseIdx (List.mem_of_mem_eraseIdx hg)
  have hcg : ∀ g ∈ gts, g.clean := by
    intro g hg id hid
    exact hclean id (hperm.mem_iff.mp (List.mem_flatMap.mpr ⟨g, hg, hid⟩))
  have hcnode : (GT.node gi gj).clean := by
    intro id hid
    simp only [GT.leaves, List.mem_append] at hid
    rcases hid with h | h
    · exact hcg gi hgi_mem id h
    · exact hcg gj hgj_mem id h
  have hpe : gts.Perm (gj :: gi :: rest) := by
    rw [hgj, hgi, hrest]
    exact gts_extract hij hmjg
  obtain ⟨dji, djr, dir⟩ := leaves_disjoint_of_perm hpe (hperm.symm.nodup hnd)
  obtain ⟨xj, hxj⟩ := List.exists_mem_of_ne_nil _ (GT.leaves_ne_nil gj)
  have hne_ji : gj.repr ≠ gi.repr :=
    repr_ne_of_leaf_witness (hcg gj hgj_mem) (hcg gi hgi_mem) ⟨xj, hxj, dji xj hxj⟩
  have hni : st.node_names[mi]? = some gi.repr := by
    rw [hnames, List.getElem?_eq_getElem (by rw [List.length_map]; omega)]
    rw [List.getElem_map, hgi, List.get_eq_getElem]
  have hnjj : st.node_names[mj]? = some gj.repr := by
    rw [hnames, List.getElem?_eq_getElem (by rw [List.length_map]; omega)]
    rw [List.getElem_map, hgj, List.get_eq_getElem]
  obtain ⟨ti, hfi, hmati⟩ := hfinds gi hgi_mem
  obtain ⟨tj, hfj, hmatj⟩ := hfinds gj hgj_mem
  have hfj1 : mapFind (mapErase st.tree_nodes gi.repr) gj.repr = some tj := by
    rw [mapFind_mapErase_ne _ hne_ji]
    exact hfj
  have hchar : ∃ D, njStep n st = some
      ⟨D, (st.node_names.eraseIdx mj).eraseIdx mi ++ ["(" ++ gi.repr ++ "," ++ gj.repr ++ ")"],
        mapInsert (mapErase (mapErase st.tree_nodes gi.repr) gj.repr)
          ("(" ++ gi.repr ++ "," ++ gj.repr ++ ")")
          (TreeNode.mk ("(" ++ gi.repr ++ "," ++ gj.repr ++ ")") (some ti) (some tj)
            (((mat st.dist mi mj / 2 : ℚ) : ℝ) : EReal))⟩ := by
    simp only [njStep]
    rw [← hmi, ← hmj, hni, hnjj]
    simp only [Option.bind_eq_bind, Option.some_bind]
    rw [hfi]
    simp only [Option.some_bind]
    rw [hfj1]
    simp only [Option.some_bind]
    exact ⟨_, rfl⟩
  obtain ⟨D, hstep⟩ := hchar
  refine ⟨_, rest ++ [GT.node gi gj], hstep, ?_⟩
  constructor
  · show (st.node_names.eraseIdx mj).eraseIdx mi ++ ["(" ++ gi.repr ++ "," ++ gj.repr ++ ")"]
      = (rest ++ [GT.node gi gj]).map GT.repr
    rw [List.map_append, hrest, map_eraseIdx, map_eraseIdx, ← hnames]
    rfl
  · show ((st.node_names.eraseIdx mj).eraseIdx mi ++ _).length = n - 1
    have l1 : (st.node_names.eraseIdx mj).length = n - 1 := by
      rw [List.length_eraseIdx_of_lt (by omega)]
      omega
    have l2 : ((st.node_names.eraseIdx mj).eraseIdx mi).length = n - 2 := by
      rw [List.length_eraseIdx_of_lt (by rw [l1]; omega), l1]
      omega
    rw [List.length_append, l2]
    simp
    omega
  · show ((rest ++ [GT.node gi gj]).flatMap GT.leaves).Perm ids
    have hA : (rest ++ [GT.node gi gj]).flatMap GT.leaves =
        rest.flatMap GT.leaves ++ (gi.leaves ++ gj.leaves) := by
      simp [List.flatMap_append, GT.leaves]
    rw [hA]
    have hB : (gts.flatMap GT.leaves).Perm
        (gj.leaves ++ (gi.leaves ++ rest.flatMap GT.leaves)) := by
      have h := hpe.flatMap_right GT.leaves
      simpa [List.flatMap_cons] using h
    have hC : (rest.flatMap GT.leaves ++ (gi.leaves ++ gj.leaves)).Perm
        (gj.leaves ++ (gi.leaves ++ rest.flatMap GT.leaves)) := by
      rw [List.perm_iff_count]
      intro a
      simp only [List.count_append]
      omega
    exact hC.trans (hB.symm.trans hperm)
  · exact hnd
  · exact hclean
  · exact keys_nodup_mapInsert _ _ _
      (keys_nodup_mapErase _ _ (keys_nodup_mapErase _ _ hknd))
  · intro g hg
    rcases List.mem_append.mp hg with hgrest | hgnode
    · obtain ⟨x, hx⟩ := List.exists_mem_of_ne_nil _ (GT.leaves_ne_nil g)
      have hxrest : x ∈ rest.flatMap GT.leaves := List.mem_flatMap.mpr ⟨g, hgrest, hx⟩
      have hgclean : g.clean := hcg g (hrest_sub g hgrest)
      have hgne_node : g.repr ≠ "(" ++ gi.repr ++ "," ++ gj.repr ++ ")" := by
        have hrepr : (GT.node gi gj).repr = "(" ++ gi.repr ++ "," ++ gj.repr ++ ")" := rfl
        rw [← hrepr]
        apply repr_ne_of_leaf_witness hgclean hcnode
        refine ⟨x, hx, ?_⟩
        simp only [GT.leaves, List.mem_append]
        rintro (hxi' | hxj')
        · exact dir x hxi' hxrest
        · exact djr x hxj' hxrest
      have hgne_i : g.repr ≠ gi.repr := by
        apply repr_ne_of_leaf_witness hgclean (hcg gi hgi_mem)
        exact ⟨x, hx, fun hxi' => dir x hxi' hxrest⟩
      have hgne_j : g.repr ≠ gj.repr := by
        apply repr_ne_of_leaf_witness hgclean (hcg gj hgj_mem)
        exact ⟨x, hx, fun hxj' => djr x hxj' hxrest⟩
      obtain ⟨t, hft, hmt⟩ := hfinds g (hrest_sub g hgrest)
      refine ⟨t, ?_, hmt⟩
      show mapFind (mapInsert (mapErase (mapErase st.tree_nodes gi.repr) gj.repr)
        ("(" ++ gi.repr ++ "," ++ gj.repr ++ ")") _) g.repr = some t
      rw [mapFind_mapInsert_ne _ _ hgne_node, mapFind_mapErase_ne _ hgne_j,
        mapFind_mapErase_ne _ hgne_i]
      exact hft
    · simp only [List.mem_singleton] at hgnode
      subst hgnode
      refine ⟨TreeNode.mk ("(" ++ gi.repr ++ "," ++ gj.repr ++ ")") (some ti) (some tj)
        (((mat st.dist mi mj / 2 : ℚ) : ℝ) : EReal), ?_, ?_⟩
      · exact mapFind_mapInsert_self _ _ _
      · exact ⟨ti, tj, (((mat st.dist mi mj / 2 : ℚ) : ℝ) : EReal), rfl, hmati, hmatj⟩

/-- The whole merge loop succeeds and lands on an invariant state with two
active nodes. -/
lemma njLoop_inv {ids : List String} :
    ∀ (n : ℕ) (st : NJState) (gts : List GT), 2 ≤ n → InvW ids n st gts →
      ∃ st' gts', njLoop n st = some st' ∧ InvW ids 2 st' gts' := by
  intro n
  induction n using Nat.strong_induction_on with
  | _ n ih =>
    intro st gts h2 hinv
    rcases Nat.lt_or_ge n 3 with h3 | h3
    · have hn2 : n = 2 := by omega
      subst hn2
      exact ⟨st, gts, rfl, hinv⟩
    · obtain ⟨m, rfl⟩ : ∃ m, n = m + 3 := ⟨n - 3, by omega⟩
      obtain ⟨st₁, gts₁, hstep, hinv₁⟩ := njStep_inv hinv (by omega)
      have hm1 : m + 3 - 1 = m + 2 := by omega
      rw [hm1] at hinv₁
      obtain ⟨st₂, gts₂, hloop, hinv₂⟩ := ih (m + 2) (by omega) st₁ gts₁ (by omega) hinv₁
      refine ⟨st₂, gts₂, ?_, hinv₂⟩
      simp only [njLoop, Option.bind_eq_bind]
      rw [hstep]
      simp only [Option.some_bind]
      exact hloop

lemma map_fst_pair :
    ∀ l : List String, ((l.map fun n => (n, TreeNode.mk n none none 0)).map Prod.fst) = l
  | [] => rfl
  | a :: l => by
    simp only [List.map_cons]
    rw [map_fst_pair l]

lemma map_repr_map_leaf : ∀ l : List String, (l.map GT.leaf).map GT.repr = l
  | [] => rfl
  | a :: l => by
    simp only [List.map_cons, GT.repr]
    rw [map_repr_map_leaf l]

lemma flatMap_leaves_map_leaf : ∀ l : List String, (l.map GT.leaf).flatMap GT.leaves = l
  | [] => rfl
  | a :: l => by
    simp only [List.map_cons, List.flatMap_cons, GT.leaves]
    rw [flatMap_leaves_map_leaf l]
    rfl

instance (c : Char) : Decidable (cleanChar c) :=
  inferInstanceAs (Decidable (_ ∧ _))

instance (s : String) : Decidable (cleanStr s) :=
  inferInstanceAs (Decidable (∀ c ∈ s.data, cleanChar c))

/-- **C2 (amended)**: for every input of at least two taxa whose identifiers
are distinct AND contain none of the characters `'('`, `')'`, `','`, the
Neighbor-Joining builder succeeds and returns a strictly binary tree whose
leaves are exactly the input identifiers, with `n` leaves and `n - 1`
internal nodes.  (Without the cleanliness restriction the claim is false:
an identifier such as `"(A,B)"` collides with a composite node name in the
name-keyed map and the builder panics.) -/
theorem claim_C2_amended (taxa : List (String × List Char))
    (h2 : 2 ≤ taxa.length) (hnd : (taxa.map Prod.fst).Nodup)
    (hcl : ∀ p ∈ taxa, cleanStr p.1) :
    ∃ t, build_phylogenetic_tree (compute_distance_matrix (taxa.map Prod.snd))
        (taxa.map Prod.fst) = some t ∧
      strictBinary t = true ∧
      (leafNames t).Perm (taxa.map Prod.fst) ∧
      leafCount t = taxa.length ∧
      internalCount t = taxa.length - 1 := by
  set ids := taxa.map Prod.fst with hids
  set dm := compute_distance_matrix (taxa.map Prod.snd) with hdm
  have hdml : dm.length = taxa.length := by
    have h := (compute_distance_matrix_spec (taxa.map Prod.snd)).1.1
    rw [List.length_map] at h
    exact h
  have hidsl : ids.length = taxa.length := by
    rw [hids, List.length_map]
  have hcl' : ∀ id ∈ ids, cleanStr id := by
    intro id hid
    rw [hids] at hid
    obtain ⟨p, hp, rfl⟩ := List.mem_map.mp hid
    exact hcl p hp
  have hinv0 : InvW ids dm.length ⟨dm, ids, njInit ids⟩ (ids.map GT.leaf) := by
    refine ⟨?_, ?_, ?_, hnd, hcl', ?_, ?_⟩
    · exact (map_repr_map_leaf ids).symm
    · show ids.length = dm.length
      omega
    · show ((ids.map GT.leaf).flatMap GT.leaves).Perm ids
      rw [flatMap_leaves_map_leaf ids]
    · show ((njInit ids).map Prod.fst).Nodup
      rw [njInit_eq ids hnd, map_fst_pair]
      exact hnd
    · intro g hg
      obtain ⟨id, hid, rfl⟩ := List.mem_map.mp hg
      refine ⟨TreeNode.mk id none none 0, ?_, ⟨0, rfl⟩⟩
      show mapFind (njInit ids) (GT.leaf id).repr = some _
      rw [njInit_eq ids hnd]
      have hmem : (id, TreeNode.mk id none none 0) ∈
          ids.map (fun n => (n, TreeNode.mk n none none 0)) :=
        List.mem_map.mpr ⟨id, hid, rfl⟩
      have hknd : ((ids.map fun n => (n, TreeNode.mk n none none 0)).map Prod.fst).Nodup := by
        rw [map_fst_pair]
        exact hnd
      exact lookup_of_nodup hknd hmem
  obtain ⟨st', gts', hloop, hinv'⟩ :=
    njLoop_inv dm.length ⟨dm, ids, njInit ids⟩ (ids.map GT.leaf) (by omega) hinv0
  obtain ⟨hnames', hlen', hperm', _, _, _, hfinds'⟩ := hinv'
  have hgl2 : gts'.length = 2 := by
    have h := hlen'
    rw [hnames', List.length_map] at h
    exact h
  obtain ⟨g0, g1, rfl⟩ := List.length_eq_two.mp hgl2
  obtain ⟨t0, hf0, hm0⟩ := hfinds' g0 (by simp)
  obtain ⟨t1, hf1, hm1⟩ := hfinds' g1 (by simp)
  have hc0 : g0.clean := by
    intro id hid
    exact hcl' id (hperm'.mem_iff.mp (List.mem_flatMap.mpr ⟨g0, by simp, hid⟩))
  have hc1 : g1.clean := by
    intro id hid
    exact hcl' id (hperm'.mem_iff.mp (List.mem_flatMap.mpr ⟨g1, by simp, hid⟩))
  have hnd2 : (([g0, g1] : List GT).flatMap GT.leaves).Nodup := hperm'.symm.nodup hnd
  have hdisj : ∀ x ∈ g0.leaves, x ∉ g1.leaves := by
    have h2' : (g0.leaves ++ g1.leaves).Nodup := by
      simpa [List.flatMap_cons] using hnd2
    exact List.disjoint_of_nodup_append h2'
  obtain ⟨x1, hx1⟩ := List.exists_mem_of_ne_nil _ (GT.leaves_ne_nil g1)
  have hne10 : g1.repr ≠ g0.repr :=
    repr_ne_of_leaf_witness hc1 hc0 ⟨x1, hx1, fun hx0 => hdisj x1 hx0 hx1⟩
  have hn0 : st'.node_names[0]? = some g0.repr := by
    rw [hnames']
    rfl
  have hn1 : st'.node_names[1]? = some g1.repr := by
    rw [hnames']
    rfl
  have hferase : mapFind (mapErase st'.tree_nodes g0.repr) g1.repr = some t1 := by
    rw [mapFind_mapErase_ne _ hne10]
    exact hf1
  have hmroot : Matches (GT.node g0 g1)
      (TreeNode.mk ("(" ++ g0.repr ++ "," ++ g1.repr ++ ")") (some t0) (some t1) 0) :=
    ⟨t0, t1, 0, rfl, hm0, hm1⟩
  have hfl : (GT.node g0 g1).leaves = ([g0, g1] : List GT).flatMap GT.leaves := by
    simp [GT.leaves, List.flatMap_cons]
  have hlp : (leafNames (TreeNode.mk ("(" ++ g0.repr ++ "," ++ g1.repr ++ ")")
      (some t0) (some t1) 0)).Perm ids := by
    rw [Matches.leaf_names _ _ hmroot, hfl]
    exact hperm'
  refine ⟨TreeNode.mk ("(" ++ g0.repr ++ "," ++ g1.repr ++ ")") (some t0) (some t1) 0,
    ?_, Matches.sb _ _ hmroot, hlp, ?_, ?_⟩
  · simp only [build_phylogenetic_tree, Option.bind_eq_bind]
    rw [hloop]
    simp only [Option.some_bind]
    rw [hn0]
    simp only [Option.some_bind]
    rw [hn1]
    simp only [Option.some_bind]
    rw [hf0]
    simp only [Option.some_bind]
    rw [hferase]
    simp only [Option.some_bind]
  · rw [leafCount, hlp.length_eq]
    omega
  · rw [Matches.internal _ _ hmroot]
    have hll : (GT.node g0 g1).leaves.length = ids.length := by
      rw [hfl]
      exact hperm'.length_eq
    rw [hll]
    omega

/-- Witness for C2 (amended) on two one-letter taxa. -/
theorem claim_C2_amended_witness :
    2 ≤ ([("A", ['A']), ("B", ['T'])] : List (String × List Char)).length ∧
    (([("A", ['A']), ("B", ['T'])] : List (String × List Char)).map Prod.fst).Nodup ∧
    (∀ p ∈ ([("A", ['A']), ("B", ['T'])] : List (String × List Char)), cleanStr p.1) ∧
    ∃ t, build_phylogenetic_tree
        (compute_distance_matrix (([("A", ['A']), ("B", ['T'])] :
          List (String × List Char)).map Prod.snd))
        (([("A", ['A']), ("B", ['T'])] : List (String × List Char)).map Prod.fst) = some t ∧
      strictBinary t = true ∧
      (leafNames t).Perm (([("A", ['A']), ("B", ['T'])] :
        List (String × List Char)).map Prod.fst) ∧
      leafCount t = ([("A", ['A']), ("B", ['T'])] : List (String × List Char)).length ∧
      internalCount t = ([("A", ['A']), ("B", ['T'])] :
        List (String × List Char)).length - 1 :=
  ⟨by decide, by decide, by decide,
    claim_C2_amended [("A", ['A']), ("B", ['T'])] (by decide) (by decide) (by decide)⟩

end Seqtc
